import Mathlib

set_option autoImplicit false
set_option linter.unusedVariables false
set_option linter.unreachableTactic false
set_option linter.unnecessarySeqFocus false
set_option linter.unusedTactic false

/-!
Shallow embedding of the codetective ingestion pipeline and analysis
scheduler (src/file/mod.rs, src/file/upload.rs, src/file/remote.rs,
src/code_retrieve.rs, src/detection_pass.rs), together with theorems
settling the spec claims about it.

Conventions of the embedding:
* Rust `HashMap<String, _>` becomes an association list with unique keys
  (insertion order is kept; only membership and cardinality matter).
* Rust methods taking `&mut self` become functions `CodeGroup → ... →
  CodeGroup × Except CodeImportError α`, returning the (possibly partially
  mutated) group together with the result, so that partial mutation before
  an error is visible.
* Reactive signals (`RwSignal`) become plain fields of an explicit state.
* Network responses are inputs of the embedded functions (the code under
  analysis treats them as opaque data).
-/

/-- Hardcoded limits from src/file/mod.rs. -/
def MAX_NUM_FILES : Nat := 100

/-- Per-file size cap in bytes, from src/file/mod.rs. -/
def MAX_FILE_SIZE : Nat := 100 * 1024

/-- Modelled from the spec: the module `src/file/suffix.rs` declaring the
static `LANGUAGE_MAP` is not present under src/ (only its uses are). The
spec describes it as a static allow-list mapping file extension to language
display name, where anything absent is treated as not code; its test
vectors require that `.rs` is recognized and `.png` is not. A representative
allow-list with those properties is used here; all theorems depend only on
membership of a few concrete extensions. -/
def LANGUAGE_MAP : List (String × String) :=
  [(".rs", "Rust"), (".py", "Python"), (".c", "C"), (".h", "C/C++ header"),
   (".cpp", "C++"), (".go", "Go"), (".js", "JavaScript"), (".ts", "TypeScript"),
   (".java", "Java"), (".rb", "Ruby"), (".sh", "Shell"), (".lua", "Lua")]

/-- Membership test `LANGUAGE_MAP.contains_key(ext)` of the Rust code. -/
def languageMapContains (ext : String) : Bool :=
  (LANGUAGE_MAP.lookup ext).isSome

/-- Embeds Rust `name.rfind('.')` followed by slicing `&name[dot_pos..]`:
returns the suffix of the character list starting at the last `.`
(inclusive), or `none` when no dot occurs. -/
def lastDotSuffix : List Char → Option (List Char)
  | [] => none
  | c :: rest =>
    match lastDotSuffix rest with
    | some suf => some suf
    | none => if c = '.' then some (c :: rest) else none

/-- Extension of a file name as computed by the Rust code (`rfind` + slice):
the substring from the last dot, inclusive. -/
def extSuffix (name : String) : Option String :=
  (lastDotSuffix name.toList).map (fun cs => String.mk cs)

/-- Error enum `CodeImportError` from src/utils/error.rs. -/
inductive CodeImportError where
  | Parse (msg : String)
  | Exists (msg : String)
  | Exten (msg : String)
  | Status (msg : String)
  | Limit (msg : String)
  | Ascii (msg : String)
  | GitHub (msg : String)
  | Upload (msg : String)
deriving Repr, DecidableEq

deriving instance DecidableEq for Except

/-- Enum `CodeFile` from src/file/mod.rs: a local file with materialized
content, or a remote file known by URL and approximate size (URLs are kept
as strings in this embedding). -/
inductive CodeFile where
  | Local (ext : String) (content : String)
  | Remote (url : String) (approx_size : Nat)
deriving Repr, DecidableEq

/-- Method `CodeFile::get_size` from src/file/mod.rs. -/
def CodeFile.get_size : CodeFile → Option Nat
  | .Local _ content => some content.length
  | .Remote _ approx_size => if approx_size = 0 then none else some approx_size

/-- Struct `CodeGroup` from src/file/mod.rs: the file mapping (as an
association list with unique keys) plus the skipped flag. -/
structure CodeGroup where
  files : List (String × CodeFile)
  skipped : Bool
deriving Repr, DecidableEq

/-- Constructor `CodeGroup::new`. -/
def CodeGroup.new : CodeGroup := { files := [], skipped := false }

/-- Method `CodeGroup::num_files`. -/
def CodeGroup.num_files (g : CodeGroup) : Nat := g.files.length

/-- Method `CodeGroup::has_skipped`. -/
def CodeGroup.has_skipped (g : CodeGroup) : Bool := g.skipped

/-- Method `CodeGroup::reset`. -/
def CodeGroup.reset (_g : CodeGroup) : CodeGroup := { files := [], skipped := false }

/-- Method `CodeGroup::add_file` from src/file/mod.rs: occupied entry means
an `Exists` error without overwriting; vacant entry inserts. -/
def CodeGroup.add_file (g : CodeGroup) (name : String) (file : CodeFile) :
    CodeGroup × Except CodeImportError Unit :=
  if (g.files.lookup name).isSome then
    (g, .error (.Exists "file name already exists"))
  else
    ({ g with files := g.files ++ [(name, file)] }, .ok ())

/-- The `for ... { self.add_file(...)?; }` loops of `import_upload` and
`import_remote` in src/file/mod.rs: add each (name, ext, content) local
file in order, stopping at (and propagating) the first error, keeping the
files added before it. -/
def CodeGroup.add_local_files (g : CodeGroup) :
    List (String × String × String) → CodeGroup × Except CodeImportError Unit
  | [] => (g, .ok ())
  | (name, ext, content) :: rest =>
    match g.add_file name (.Local ext content) with
    | (g', .ok _) => g'.add_local_files rest
    | (g', .error e) => (g', .error e)

/-- Method `CodeGroup::import_textbox` from src/file/mod.rs: adds one local
file with the fixed synthetic path and extension, with no emptiness or
size check of its own. -/
def CodeGroup.import_textbox (g : CodeGroup) (content : String) :
    CodeGroup × Except CodeImportError Unit :=
  g.add_file "code from the textbox" (.Local "textbox" content)

/-- One entry of a decoded archive: whether it is a regular file, its path
inside the archive, its declared size, and its text content. -/
structure ArchiveEntry where
  is_file : Bool
  name : String
  size : Nat
  content : String

/-- A browser upload entry as seen through gloo_file in src/file/upload.rs:
its name, its metadata size (`file.size()`), its text content
(`read_as_text`), and the result of decoding its bytes as an archive
(`none` when the selected decoder rejects the container as malformed;
`some entries` when it decodes). -/
structure UploadFile where
  name : String
  size : Nat
  content : String
  archive : Option (List ArchiveEntry)

/-- Loop body of `CodeGroup::list_upload_files` from src/file/upload.rs:
empty names abort with `Parse`; names with a recognized code extension are
collected unless oversized (which only sets the skipped flag); collection
stops once `MAX_NUM_FILES` entries are gathered. -/
def CodeGroup.list_upload_loop (g : CodeGroup) (acc : List (String × String × String)) :
    List UploadFile → CodeGroup × Except CodeImportError (List (String × String × String))
  | [] => (g, .ok acc)
  | file :: rest =>
    if file.name = "" then
      (g, .error (.Parse "encountered empty file name"))
    else
      match extSuffix file.name with
      | some extension =>
        if extension ≠ "" ∧ languageMapContains extension then
          if file.size > MAX_FILE_SIZE then
            CodeGroup.list_upload_loop { g with skipped := true } acc rest
          else
            let acc' := acc ++ [(file.name, extension, file.content)]
            if acc'.length ≥ MAX_NUM_FILES then (g, .ok acc')
            else g.list_upload_loop acc' rest
        else g.list_upload_loop acc rest
      | none => g.list_upload_loop acc rest

/-- Method `CodeGroup::list_upload_files` from src/file/upload.rs. -/
def CodeGroup.list_upload_files (g : CodeGroup) (files : List UploadFile) :
    CodeGroup × Except CodeImportError (Option (List (String × String × String))) :=
  match g.list_upload_loop [] files with
  | (g', .error e) => (g', .error e)
  | (g', .ok l) =>
    if l.isEmpty then
      (g', .error (.Upload "uploaded files do not contain any code files"))
    else (g', .ok (some l))

/-- Shared entry loop of the decoders `extract_zip`, `extract_tar` and
`extract_7z` in src/file/upload.rs (their filtering logic is textually
identical in the source): keep regular files whose extension is in
`LANGUAGE_MAP`, set the skipped flag on oversized ones, and stop once
`MAX_NUM_FILES` entries are collected. -/
def CodeGroup.extract_entries_loop (g : CodeGroup) (acc : List (String × String × String)) :
    List ArchiveEntry → CodeGroup × List (String × String × String)
  | [] => (g, acc)
  | entry :: rest =>
    if entry.is_file then
      match extSuffix entry.name with
      | some extension =>
        if extension ≠ "" ∧ languageMapContains extension then
          if entry.size > MAX_FILE_SIZE then
            CodeGroup.extract_entries_loop { g with skipped := true } acc rest
          else
            let acc' := acc ++ [(entry.name, extension, entry.content)]
            if acc'.length ≥ MAX_NUM_FILES then (g, acc')
            else g.extract_entries_loop acc' rest
        else g.extract_entries_loop acc rest
      | none => g.extract_entries_loop acc rest
    else g.extract_entries_loop acc rest

/-- Method `CodeGroup::extract_zip` from src/file/upload.rs: a container the
decoder cannot open is an `Upload` error; otherwise the entries are
filtered by the shared loop. -/
def CodeGroup.extract_zip (g : CodeGroup) (archive : Option (List ArchiveEntry)) :
    CodeGroup × Except CodeImportError (List (String × String × String)) :=
  match archive with
  | none => (g, .error (.Upload "failed to read uploaded zip archive"))
  | some entries =>
    let (g', l) := g.extract_entries_loop [] entries
    (g', .ok l)

/-- Method `CodeGroup::extract_tar` from src/file/upload.rs (also used for
gzip-wrapped tar). -/
def CodeGroup.extract_tar (g : CodeGroup) (archive : Option (List ArchiveEntry)) :
    CodeGroup × Except CodeImportError (List (String × String × String)) :=
  match archive with
  | none => (g, .error (.Upload "failed to read uploaded tar archive"))
  | some entries =>
    let (g', l) := g.extract_entries_loop [] entries
    (g', .ok l)

/-- Method `CodeGroup::extract_7z` from src/file/upload.rs (the solid-arch
streaming constraint does not change which entries are kept). -/
def CodeGroup.extract_7z (g : CodeGroup) (archive : Option (List ArchiveEntry)) :
    CodeGroup × Except CodeImportError (List (String × String × String)) :=
  match archive with
  | none => (g, .error (.Upload "failed to read uploaded 7z archive"))
  | some entries =>
    let (g', l) := g.extract_entries_loop [] entries
    (g', .ok l)

/-- Method `CodeGroup::extract_archive` from src/file/upload.rs: dispatch on
the file-name extension; an unsupported extension (or a name without a
dot) yields `ok none` so that the caller can fall back; a supported format
that decodes to zero admissible entries yields an `Upload` error. -/
def CodeGroup.extract_archive (g : CodeGroup) (file : UploadFile) :
    CodeGroup × Except CodeImportError (Option (List (String × String × String))) :=
  if file.name = "" then
    (g, .error (.Parse "encountered empty file name"))
  else
    match extSuffix file.name with
    | some extension =>
      let decoded :=
        if extension = ".zip" then some (g.extract_zip file.archive)
        else if extension = ".tar" then some (g.extract_tar file.archive)
        else if extension = ".gz" ∨ extension = ".tgz" then some (g.extract_tar file.archive)
        else if extension = ".7z" then some (g.extract_7z file.archive)
        else none
      match decoded with
      | none => (g, .ok none)
      | some (g', .error e) => (g', .error e)
      | some (g', .ok l) =>
        if l.isEmpty then
          (g', .error (.Upload "uploaded archive do not contain any code files"))
        else (g', .ok (some l))
    | none => (g, .ok none)

/-- The second half of `CodeGroup::import_upload` from src/file/mod.rs:
interpret the upload as a list of standalone code files. -/
def CodeGroup.import_upload_list (g : CodeGroup) (files : List UploadFile) :
    CodeGroup × Except CodeImportError Unit :=
  match g.list_upload_files files with
  | (g', .error e) => (g', .error e)
  | (g', .ok (some l)) => g'.add_local_files l
  | (g', .ok none) =>
    (g', .error (.Upload "uploaded files do not contain any code files"))

/-- Method `CodeGroup::import_upload` from src/file/mod.rs: a single
uploaded file is first tried as an archive; a `none` answer (not an
archive) falls back to the standalone-file interpretation; an archive
error propagates. -/
def CodeGroup.import_upload (g : CodeGroup) (files : List UploadFile) :
    CodeGroup × Except CodeImportError Unit :=
  match files with
  | [file] =>
    (match g.extract_archive file with
     | (g', .error e) => (g', .error e)
     | (g', .ok (some l)) => g'.add_local_files l
     | (g', .ok none) => g'.import_upload_list files)
  | _ => g.import_upload_list files

/-- Enum `ValidationState` from src/main.rs (the transient `Pending` state
is not observable in this sequential embedding). -/
inductive ValidationState where
  | Idle
  | Pending
  | Success
  | Failure (err : CodeImportError)
deriving Repr, DecidableEq

/-- Rust `str::trim`: drop leading and trailing whitespace (written out on
the character list so that it evaluates by reduction). -/
def rustTrim (s : String) : String :=
  String.mk (((s.toList.dropWhile Char.isWhitespace).reverse.dropWhile Char.isWhitespace).reverse)

/-- Handler `handle_code_text_submit` from src/code_retrieve.rs, reduced to
its state effect on the code group and the validation state: the input is
trimmed; an empty trimmed input fails with a `Parse` error before
`import_textbox` is ever called; otherwise the trimmed text is imported. -/
def handle_code_text_submit (g : CodeGroup) (input_code_text : String) :
    CodeGroup × ValidationState :=
  let code_text := rustTrim input_code_text
  if code_text = "" then
    (g, .Failure (.Parse "code textbox input is empty"))
  else
    match g.import_textbox code_text with
    | (g', .ok _) => (g', .Success)
    | (g', .error e) => (g', .Failure e)

/-- A parsed URL as used by src/file/remote.rs: scheme, host, and the
slash-separated path segments (url::Url is treated through the accessors
the code calls). -/
structure Url where
  scheme : String
  host : Option String
  path_segments : List String
deriving Repr, DecidableEq

/-- Rendering of a URL back to a string (used when a remote `CodeFile`
stores its URL). -/
def Url.render (u : Url) : String :=
  u.scheme ++ "://" ++ u.host.getD "" ++ "/" ++ String.intercalate "/" u.path_segments

/-- Whether `pat` occurs at the head of the character list. -/
def charListStartsWith : List Char → List Char → Bool
  | _, [] => true
  | [], _ :: _ => false
  | h :: hs, p :: ps => h = p && charListStartsWith hs ps

/-- Whether `pat` occurs anywhere in the character list. -/
def charListContains (pat : List Char) : List Char → Bool
  | [] => charListStartsWith [] pat
  | c :: rest => charListStartsWith (c :: rest) pat || charListContains pat rest

/-- Rust `str::contains` for the content-type checks (written on the
character list so that it evaluates by reduction). -/
def strContains (s pat : String) : Bool :=
  charListContains pat.toList s.toList

/-- Method `CodeGroup::get_url_extension` from src/file/remote.rs. -/
def CodeGroup.get_url_extension (url : Url) : Except CodeImportError String :=
  match url.path_segments.getLast? with
  | some last =>
    (match lastDotSuffix last.toList with
     | some suf =>
       let extension := String.mk suf
       if extension = "" then .error (.Parse "file URL missing file extension")
       else .ok extension
     | none => .error (.Parse "file URL missing file extension"))
  | none => .error (.Parse "invalid URL path to raw file")

/-- Method `CodeGroup::validate_file_url` from src/file/remote.rs: scheme
must be http(s), the extension must be code; returns the full path name
(`url.path().trim_matches('/')`, i.e. the joined segments). -/
def CodeGroup.validate_file_url (url : Url) : Except CodeImportError String :=
  if url.scheme ≠ "http" ∧ url.scheme ≠ "https" then
    .error (.Parse "unsupported URL scheme")
  else
    match CodeGroup.get_url_extension url with
    | .error e => .error e
    | .ok ext =>
      if ¬ languageMapContains ext then .error (.Exten "file extension is not code")
      else .ok (String.intercalate "/" url.path_segments)

/-- The metadata-only response a HEAD probe yields, after redirection was
resolved (src/file/remote.rs keeps the status, the content-type header and
the content-length header): `content_length = some n` stands for a header
that is present and parses to `n`; a missing or unparsable header is
`none` (the code leaves the size at 0 in both cases). -/
structure HeadResponse where
  status_success : Bool
  content_type : Option String
  content_length : Option Nat
deriving Repr, DecidableEq

/-- Method `CodeGroup::head_single_file` from src/file/remote.rs, taking
the post-redirection URL and response as inputs: non-success status is a
`Status` error; an HTML-ish content type (or no content type) means "not
a file" (`ok none`); a parsed content-length above `MAX_FILE_SIZE` sets
the skipped flag and fails the whole call with `Limit`; otherwise the URL
is validated and the path, URL, and approximate size are returned. -/
def CodeGroup.head_single_file (g : CodeGroup) (final_url : Url) (response : HeadResponse) :
    CodeGroup × Except CodeImportError (Option (String × Url × Nat)) :=
  if ¬ response.status_success then
    (g, .error (.Status "URL check failed"))
  else
    match response.content_type with
    | none => (g, .ok none)
    | some content_type_str =>
      if strContains content_type_str "text/html" ∨
          strContains content_type_str "application/xhtml" then
        (g, .ok none)
      else
        let approx_size := (response.content_length).getD 0
        if (response.content_length).isSome ∧ approx_size > MAX_FILE_SIZE then
          ({ g with skipped := true }, .error (.Limit "remote file too large"))
        else
          match CodeGroup.validate_file_url final_url with
          | .error e => (g, .error e)
          | .ok path => (g, .ok (some (path, final_url, approx_size)))

/-- The single-raw-file branch of `CodeGroup::import_remote` from
src/file/mod.rs: a `some` answer of the probe adds one remote file; a
`none` answer ends in the final `Parse` error of `import_remote`. -/
def CodeGroup.import_remote_single (g : CodeGroup) (url : Url) (response : HeadResponse) :
    CodeGroup × Except CodeImportError Unit :=
  match g.head_single_file url response with
  | (g', .error e) => (g', .error e)
  | (g', .ok (some (path, final_url, approx_size))) =>
    g'.add_file path (.Remote final_url.render approx_size)
  | (g', .ok none) =>
    (g', .error (.Parse "URL not pointing to raw file or GitHub repo"))

/-- GitHub raw content URL host, constant `GITHUB_RAW_PREFIX` of
src/file/remote.rs (renamed here). -/
def GITHUB_RAW_URL_BASE : String := "https://raw.githubusercontent.com"

mutual
/-- A GitHub tree object as the traversal sees it, modelling an honest
server: `sha` is the `sha` field of the `GitHubGetTreeResponse` the API
returns for this tree, and each entry is a blob (path and optional
declared size, mirroring `GitHubGetTreeEntry.size`), a subtree (path plus
the tree its sha resolves to), or anything else (submodules, ignored). -/
inductive GhTree where
  | mk (sha : String) (entries : List GhEntry)

/-- One `GitHubGetTreeEntry` of a tree response, with tree shas resolved
to the trees they point at. -/
inductive GhEntry where
  | blob (path : String) (size : Option Nat)
  | tree (path : String) (sub : GhTree)
  | other
end

/-- The `sha` field of a tree response. -/
def GhTree.sha : GhTree → String
  | .mk s _ => s

/-- The `tree` (entry list) field of a tree response. -/
def GhTree.entries : GhTree → List GhEntry
  | .mk _ es => es

mutual
/-- Node count of a tree, used as the termination measure of the BFS. -/
def GhTree.treeSize : GhTree → Nat
  | .mk _ es => 1 + ghEntryListSize es
termination_by t => sizeOf t

/-- Node count of an entry list. -/
def ghEntryListSize : List GhEntry → Nat
  | [] => 0
  | e :: rest => ghEntrySize e + ghEntryListSize rest
termination_by es => sizeOf es

/-- Node count of an entry. -/
def ghEntrySize : GhEntry → Nat
  | .blob _ _ => 1
  | .tree _ sub => 1 + sub.treeSize
  | .other => 1
termination_by e => sizeOf e
end

/-- Total size of the trees held in a BFS queue. -/
def ghQueueSize (queue : List (String × GhTree)) : Nat :=
  match queue with
  | [] => 0
  | (_, t) :: rest => t.treeSize + ghQueueSize rest

/-- The `full_path` closure of `bfs_traverse_tree` in src/file/remote.rs. -/
def full_path (p pc : String) : String :=
  if p = "" then pc else p ++ "/" ++ pc

/-- Raw content URL composed for a blob in `bfs_traverse_tree`:
raw-host/owner/repo/root-sha/full-path. -/
def raw_url (owner repo rsha fullpath : String) : String :=
  GITHUB_RAW_URL_BASE ++ "/" ++ owner ++ "/" ++ repo ++ "/" ++ rsha ++ "/" ++ fullpath

/-- The entry loop of `CodeGroup::bfs_traverse_tree` in src/file/remote.rs,
over the entries of one tree response: blobs with a recognized code
extension are appended to the accumulated info list (oversized ones only
set the skipped flag; a missing size counts as 0), subtrees are appended
to the BFS queue, and the whole traversal stops (final `Bool` is `true`)
once the info list reaches `MAX_NUM_FILES`. -/
def CodeGroup.bfs_entries (g : CodeGroup) (owner repo rsha tree_path : String) :
    List GhEntry → List (String × String × Nat) → List (String × GhTree) →
    CodeGroup × List (String × String × Nat) × List (String × GhTree) × Bool
  | [], acc, queue => (g, acc, queue, false)
  | .blob path size :: rest, acc, queue =>
    (match extSuffix path with
     | some extension =>
       if extension ≠ "" ∧ languageMapContains extension then
         let this_path := repo ++ "/" ++ full_path tree_path path
         let url := raw_url owner repo rsha (full_path tree_path path)
         let approx_size := size.getD 0
         if approx_size > MAX_FILE_SIZE then
           CodeGroup.bfs_entries { g with skipped := true } owner repo rsha tree_path rest acc queue
         else
           let acc' := acc ++ [(this_path, url, approx_size)]
           if acc'.length ≥ MAX_NUM_FILES then (g, acc', queue, true)
           else g.bfs_entries owner repo rsha tree_path rest acc' queue
       else g.bfs_entries owner repo rsha tree_path rest acc queue
     | none => g.bfs_entries owner repo rsha tree_path rest acc queue)
  | .tree path sub :: rest, acc, queue =>
    g.bfs_entries owner repo rsha tree_path rest acc (queue ++ [(full_path tree_path path, sub)])
  | .other :: rest, acc, queue =>
    g.bfs_entries owner repo rsha tree_path rest acc queue

/-- Method `CodeGroup::bfs_traverse_tree` from src/file/remote.rs: pop the
front of the BFS queue, record the first response sha as the root sha
(`none` models the `assert!(path.is_empty())` panic, which would fire if
the root sha were still empty at a non-root tree), process the entries,
and stop early when the file cap is hit. The arguments mirror the Rust
signature: the queue of (path, tree) pairs, the accumulated info list,
and the root sha register (initially empty). -/
def CodeGroup.bfs_traverse_tree (owner repo : String) :
    CodeGroup → List (String × GhTree) → List (String × String × Nat) → String →
    Option (CodeGroup × List (String × String × Nat))
  | g, [], acc, _ => some (g, acc)
  | g, (path, t) :: rest, acc, rsha =>
    if rsha = "" ∧ path ≠ "" then none
    else
      let rsha2 := if rsha = "" then t.sha else rsha
      let r := CodeGroup.bfs_entries g owner repo rsha2 path t.entries acc rest
      if r.2.2.2 then some (r.1, r.2.1)
      else CodeGroup.bfs_traverse_tree owner repo r.1 r.2.2.1 r.2.1 rsha2
termination_by g queue acc rsha => ghQueueSize queue
decreasing_by
  have happ : ∀ (q1 q2 : List (String × GhTree)),
      ghQueueSize (q1 ++ q2) = ghQueueSize q1 + ghQueueSize q2 := by
    intro q1 q2
    induction q1 with
    | nil => simp [ghQueueSize]
    | cons x tl ih =>
      obtain ⟨xp, xt⟩ := x
      simp [ghQueueSize, ih] <;> omega
  have hq : ∀ (s tp : String) (es : List GhEntry) (g1 : CodeGroup)
      (acc1 : List (String × String × Nat)) (q : List (String × GhTree)),
      ghQueueSize (CodeGroup.bfs_entries g1 owner repo s tp es acc1 q).2.2.1 ≤
        ghQueueSize q + ghEntryListSize es := by
    intro s tp es
    induction es with
    | nil =>
      intro g1 acc1 q
      simp [CodeGroup.bfs_entries, ghEntryListSize]
    | cons e tl ih =>
      intro g1 acc1 q
      cases e with
      | blob p sz =>
        cases hx : extSuffix p with
        | none =>
          have := ih g1 acc1 q
          simp only [CodeGroup.bfs_entries, hx]
          simp [ghEntryListSize, ghEntrySize] <;> omega
        | some extension =>
          simp only [CodeGroup.bfs_entries, hx]
          split
          · split
            · have := ih { g1 with skipped := true } acc1 q
              simp [ghEntryListSize, ghEntrySize] <;> omega
            · split
              · simp [ghEntryListSize, ghEntrySize] <;> omega
              · have := ih g1 (acc1 ++ [(repo ++ "/" ++ full_path tp p,
                  raw_url owner repo s (full_path tp p), sz.getD 0)]) q
                simp [ghEntryListSize, ghEntrySize] <;> omega
          · have := ih g1 acc1 q
            simp [ghEntryListSize, ghEntrySize] <;> omega
      | tree p sub =>
        have := ih g1 acc1 (q ++ [(full_path tp p, sub)])
        have h2 := happ q [(full_path tp p, sub)]
        simp only [CodeGroup.bfs_entries]
        simp [ghEntryListSize, ghEntrySize, ghQueueSize] at this h2 ⊢ <;> omega
      | other =>
        have := ih g1 acc1 q
        simp only [CodeGroup.bfs_entries]
        simp [ghEntryListSize, ghEntrySize] <;> omega
  have ht : GhTree.treeSize t = 1 + ghEntryListSize t.entries := by
    cases t with
    | mk s es => simp [GhTree.treeSize, GhTree.entries]
  simp only [ghQueueSize]
  by_cases hr : rsha = ""
  · have hmain := hq t.sha path t.entries g acc rest
    simp [hr]
    omega
  · have hmain := hq rsha path t.entries g acc rest
    simp [hr]
    omega

/-- Method `CodeGroup::list_github_repo` from src/file/remote.rs, taken at
the point where the URL was recognized as a GitHub repo URL and resolved
(owner, repo, and the root tree the ref resolves to): BFS the tree, then
an empty result list is a `GitHub` error, otherwise the info list is
returned. `none` again models the traversal assertion panic. -/
def CodeGroup.list_github_repo_resolved (g : CodeGroup) (owner repo : String) (root : GhTree) :
    Option (CodeGroup × Except CodeImportError (List (String × String × Nat))) :=
  match CodeGroup.bfs_traverse_tree owner repo g [("", root)] [] "" with
  | none => none
  | some (g', path_info_list) =>
    if path_info_list.isEmpty then
      some (g', .error (.GitHub "repo does not contain any code files"))
    else some (g', .ok path_info_list)

/-- The `for (path, (file_url, approx_size)) in path_info_list` loop of
`CodeGroup::import_remote` in src/file/mod.rs. -/
def CodeGroup.add_remote_files (g : CodeGroup) :
    List (String × String × Nat) → CodeGroup × Except CodeImportError Unit
  | [] => (g, .ok ())
  | (path, url, approx_size) :: rest =>
    match g.add_file path (.Remote url approx_size) with
    | (g', .ok _) => g'.add_remote_files rest
    | (g', .error e) => (g', .error e)

/-- The GitHub-repo branch of `CodeGroup::import_remote` from
src/file/mod.rs, with the repo URL resolved to owner/repo/root tree. -/
def CodeGroup.import_remote_repo (g : CodeGroup) (owner repo : String) (root : GhTree) :
    Option (CodeGroup × Except CodeImportError Unit) :=
  match g.list_github_repo_resolved owner repo root with
  | none => none
  | some (g', .error e) => some (g', .error e)
  | some (g', .ok path_info_list) => some (g'.add_remote_files path_info_list)

/-- Written from the spec side of claim C6 (refinement target, not from the
source): of one tree response's entries, the blob entries whose extension
is in the recognized code-extension set and whose declared size (0 when
missing) is within the per-file cap, each mapped to its repo-qualified
path, the raw URL raw-host/owner/repo/root-sha/full-path, and its size. -/
def github_blobs (owner repo rsha tree_path : String) : List GhEntry → List (String × String × Nat)
  | [] => []
  | .blob path size :: rest =>
    (match extSuffix path with
     | some extension =>
       if extension ≠ "" ∧ languageMapContains extension then
         if size.getD 0 > MAX_FILE_SIZE then github_blobs owner repo rsha tree_path rest
         else
           (repo ++ "/" ++ full_path tree_path path,
             raw_url owner repo rsha (full_path tree_path path), size.getD 0) ::
             github_blobs owner repo rsha tree_path rest
       else github_blobs owner repo rsha tree_path rest
     | none => github_blobs owner repo rsha tree_path rest)
  | .tree _ _ :: rest => github_blobs owner repo rsha tree_path rest
  | .other :: rest => github_blobs owner repo rsha tree_path rest

/-- Written from the spec side of claim C6: the subtrees of one tree
response's entries, with their full paths, in entry order (the BFS
frontier additions). -/
def github_subtrees (tree_path : String) : List GhEntry → List (String × GhTree)
  | [] => []
  | .blob _ _ :: rest => github_subtrees tree_path rest
  | .tree path sub :: rest => (full_path tree_path path, sub) :: github_subtrees tree_path rest
  | .other :: rest => github_subtrees tree_path rest

/-- Written from the spec side of claim C6 (refinement target): all
admissible blobs reachable from the queued trees in breadth-first order,
every one carrying a raw URL built from the single root sha `rsha`. -/
def github_admitted (owner repo rsha : String) : List (String × GhTree) → List (String × String × Nat)
  | [] => []
  | (path, t) :: rest =>
    github_blobs owner repo rsha path t.entries ++
      github_admitted owner repo rsha (rest ++ github_subtrees path t.entries)
termination_by queue => ghQueueSize queue
decreasing_by
  rename_i path
  have happ : ∀ (q1 q2 : List (String × GhTree)),
      ghQueueSize (q1 ++ q2) = ghQueueSize q1 + ghQueueSize q2 := by
    intro q1 q2
    induction q1 with
    | nil => simp [ghQueueSize]
    | cons x tl ih =>
      obtain ⟨xp, xt⟩ := x
      simp [ghQueueSize, ih] <;> omega
  have hsub : ∀ (tp : String) (es : List GhEntry),
      ghQueueSize (github_subtrees tp es) ≤ ghEntryListSize es := by
    intro tp es
    induction es with
    | nil => simp [github_subtrees, ghQueueSize, ghEntryListSize]
    | cons e tl ih =>
      cases e with
      | blob p sz => simp [github_subtrees, ghEntryListSize, ghEntrySize] <;> omega
      | tree p sub =>
        simp [github_subtrees, ghEntryListSize, ghEntrySize, ghQueueSize] <;> omega
      | other => simp [github_subtrees, ghEntryListSize, ghEntrySize] <;> omega
  have ht : GhTree.treeSize t = 1 + ghEntryListSize t.entries := by
    cases t with
    | mk s es => simp [GhTree.treeSize, GhTree.entries]
  have h1 := happ rest (github_subtrees path t.entries)
  have h2 := hsub path t.entries
  simp only [ghQueueSize]
  omega

/-- Enum `DetectionStatus` from src/detection_pass.rs. -/
inductive DetectionStatus where
  | Pending
  | Flying
  | Success (percent : Nat) (reasoning : String)
  | Failure (msg : String)
deriving Repr, DecidableEq

/-- Rust `matches!(status, DetectionStatus::Failure(_))`. -/
def DetectionStatus.isFailure : DetectionStatus → Bool
  | .Failure _ => true
  | _ => false

/-- The signal state `handle_retry_button` in src/detection_pass.rs works
on: status cells indexed by identity (each table row owns one), the FIFO
task queue and the results ledger referring to cells by index, the
finished counter, and the completion and nothing-to-retry flags. -/
structure DetectState where
  statuses : List DetectionStatus
  task_queue : List Nat
  file_results : List (String × Nat)
  num_finished : Nat
  detection_cp : Bool
  nothing_to_retry : Bool
deriving Repr, DecidableEq

/-- The `for (path, file, detect_status) in file_results` loop of
`handle_retry_button` in src/detection_pass.rs: every ledger entry whose
cell currently holds `Failure` is reset to `Pending` and its cell pushed
to the back of the task queue, counting the retried ones. -/
def retry_loop (statuses : List DetectionStatus) (queue : List Nat) (num_retried : Nat) :
    List (String × Nat) → List DetectionStatus × List Nat × Nat
  | [] => (statuses, queue, num_retried)
  | (_, id) :: rest =>
    if (statuses.getD id .Pending).isFailure then
      retry_loop (statuses.set id .Pending) (queue ++ [id]) (num_retried + 1) rest
    else
      retry_loop statuses queue num_retried rest

/-- Handler `handle_retry_button` from src/detection_pass.rs: re-queue the
failures, then either clear the completion flag and decrement the finished
counter (saturating, via `cmp::min`) when something was retried, or set
the nothing-to-retry flag when nothing was. -/
def handle_retry_button (s : DetectState) : DetectState :=
  match retry_loop s.statuses s.task_queue 0 s.file_results with
  | (statuses', queue', num_retried) =>
    if num_retried > 0 then
      { s with
        statuses := statuses'
        task_queue := queue'
        nothing_to_retry := false
        num_finished := s.num_finished - min num_retried s.num_finished
        detection_cp := false }
    else
      { s with
        statuses := statuses'
        task_queue := queue'
        nothing_to_retry := true }

/-- The status-cell-relevant state of the analysis scheduler of
src/detection_pass.rs: the per-file status cells, the task queue of cell
indices, and the index the scheduler has popped and is currently
processing (it is `some id` between the `status.set(Flying)` write at the
top of a dispatch and the terminal write of the same dispatch; dispatches
never overlap because there is a single scheduler task). -/
structure SchedState where
  statuses : List DetectionStatus
  task_queue : List Nat
  inflight : Option Nat
deriving Repr, DecidableEq

/-- One terminal outcome a dispatch can write: `Success` from a parsed
call response, or `Failure` from a content-fetch error, a call error, or
a missing API client. -/
inductive SchedOutcome where
  | success (percent : Nat) (reasoning : String)
  | failure (msg : String)

/-- The status written by a terminal outcome. -/
def SchedOutcome.status : SchedOutcome → DetectionStatus
  | .success p r => .Success p r
  | .failure m => .Failure m

/-- The events of src/detection_pass.rs that write `DetectionStatus` cells,
as a step relation: row registration (`FileDetectionRow` creates a fresh
`Pending` cell and queues it), the start of a scheduler dispatch
(`detection_analysis_task` pops the queue head and sets its cell to
`Flying`), the terminal write of the same dispatch (every later
`status.set` of the iteration writes `Success(..)` or `Failure(..)` to the
popped cell), and `handle_retry_button` (which resets exactly the
`Failure` cells to `Pending` and re-queues them). -/
inductive SchedStep : SchedState → SchedState → Prop
  | register (s : SchedState) (path : String) :
      SchedStep s
        { statuses := s.statuses ++ [.Pending]
          task_queue := s.task_queue ++ [s.statuses.length]
          inflight := s.inflight }
  | dispatchStart (s : SchedState) (id : Nat) (rest : List Nat) :
      s.task_queue = id :: rest →
      s.inflight = none →
      SchedStep s
        { statuses := s.statuses.set id .Flying
          task_queue := rest
          inflight := some id }
  | dispatchFinish (s : SchedState) (id : Nat) (outcome : SchedOutcome) :
      s.inflight = some id →
      SchedStep s
        { statuses := s.statuses.set id outcome.status
          task_queue := s.task_queue
          inflight := none }
  | retry (s : SchedState) :
      SchedStep s
        { statuses := s.statuses.map (fun st => if st.isFailure then .Pending else st)
          task_queue := s.task_queue ++
            ((List.range s.statuses.length).filter
              (fun id => (s.statuses.getD id .Pending).isFailure))
          inflight := s.inflight }

/-- The initial scheduler state: no files registered yet. -/
def SchedState.init : SchedState :=
  { statuses := [], task_queue := [], inflight := none }

/-- States reachable from the initial scheduler state through the status
writing events. -/
inductive SchedReachable : SchedState → Prop
  | init : SchedReachable SchedState.init
  | step (s s' : SchedState) : SchedReachable s → SchedStep s s' → SchedReachable s'

/-- Enum `StepStage` from src/main.rs, with the order `derive(PartialOrd,
Ord)` gives it (declaration order). -/
inductive StepStage where
  | Initial
  | ApiDone
  | CodeGot
deriving Repr, DecidableEq

/-- Rank realizing the derived `Ord` of `StepStage`. -/
def StepStage.rank : StepStage → Nat
  | .Initial => 0
  | .ApiDone => 1
  | .CodeGot => 2

/-- An API client handle; only its identity matters to the scheduler's
take/restore discipline, so it is abstracted to a tag. -/
structure ApiClient where
  tag : Nat
deriving Repr, DecidableEq

/-- Lines 165-183 of src/detection_pass.rs (`detection_analysis_task`): at
the end of a dispatch that has taken the client handle out of the shared
slot, the handle is put back only when `now_stage >= StepStage::ApiDone`
and the slot is still vacant (`if api_client.is_none()`); in every other
case the slot is left as it is and the taken handle is dropped. The
argument `slot` is the shared slot content at that moment (normally
`none`, since the handle was taken from it, but a concurrent provider
re-selection may have refilled it). -/
def reinsert_client (now_stage : StepStage) (slot : Option ApiClient) (taken : ApiClient) :
    Option ApiClient :=
  if StepStage.ApiDone.rank ≤ now_stage.rank then
    match slot with
    | none => some taken
    | some c => some c
  else slot

/-- The cells `handle_retry_button` re-queues: the ledger entries whose
status cell currently holds `Failure`, in ledger order (by their cell
index). -/
def retry_targets (statuses : List DetectionStatus) (file_results : List (String × Nat)) :
    List Nat :=
  (file_results.filter (fun pr => (statuses.getD pr.2 .Pending).isFailure)).map
    (fun pr => pr.2)

/-- A textbox input one byte above the per-file size cap. -/
def textboxOversized : String := String.mk (List.replicate (MAX_FILE_SIZE + 1) 'a')

/-- C2: the import paths driven by candidate filtering (upload list,
archive decoding, repo traversal) respect the size cap, but the textbox
path does not: `import_textbox` admits a file of any size, never touching
the skipped flag — although the UI help text of src/code_retrieve.rs
promises "Size limited to 100KB" for the textbox. The theorem evaluates
the code at the failing input: a textbox content of MAX_FILE_SIZE + 1
bytes is admitted (call succeeds, the file is in the mapping with a size
above the cap, `skipped` stays false). -/
theorem claim_C2_textbox_oversized_admitted :
    (CodeGroup.new.import_textbox textboxOversized).2 = .ok () ∧
    (CodeGroup.new.import_textbox textboxOversized).1.files =
      [("code from the textbox", .Local "textbox" textboxOversized)] ∧
    (CodeGroup.new.import_textbox textboxOversized).1.has_skipped = false ∧
    CodeFile.get_size (.Local "textbox" textboxOversized) = some (MAX_FILE_SIZE + 1) ∧
    MAX_FILE_SIZE + 1 > MAX_FILE_SIZE := by
  have hlen : textboxOversized.length = MAX_FILE_SIZE + 1 := by
    have h : textboxOversized.length = (List.replicate (MAX_FILE_SIZE + 1) 'a').length := rfl
    rw [h, List.length_replicate]
  refine ⟨?_, ?_, ?_, ?_, by omega⟩
  · simp [CodeGroup.import_textbox, CodeGroup.add_file, CodeGroup.new]
  · simp [CodeGroup.import_textbox, CodeGroup.add_file, CodeGroup.new]
  · simp [CodeGroup.import_textbox, CodeGroup.add_file, CodeGroup.new, CodeGroup.has_skipped]
  · simp [CodeFile.get_size, hlen]

/-- C5 counterexample: `import_textbox` itself does not reject the empty
string — called on the empty group with empty content it succeeds and
admits one file, contradicting "import_textbox rejects the input with a
Parse error and admits no file". (The emptiness check lives in the UI
handler `handle_code_text_submit`, before `import_textbox` is called.) -/
theorem claim_C5_counterexample :
    (CodeGroup.new.import_textbox "").2 = .ok () ∧
    (CodeGroup.new.import_textbox "").1.num_files = 1 := by
  constructor
  · simp [CodeGroup.import_textbox, CodeGroup.add_file, CodeGroup.new]
  · simp [CodeGroup.import_textbox, CodeGroup.add_file, CodeGroup.new, CodeGroup.num_files]

/-- C5 amended: the empty / whitespace-only rejection is performed by the
submit handler `handle_code_text_submit`, which trims the input and fails
with a `Parse` error, leaving the group untouched, before `import_textbox`
is ever called; for input with non-whitespace content, the handler imports
the trimmed text and exactly one file is created under the fixed synthetic
path (`import_textbox` itself never rejects content, it can only fail with
`Exists` when that path is already taken). -/
theorem claim_C5_amended :
    (∀ (g : CodeGroup) (input : String), rustTrim input = "" →
      handle_code_text_submit g input = (g, .Failure (.Parse "code textbox input is empty"))) ∧
    (∀ (input : String), rustTrim input ≠ "" →
      handle_code_text_submit CodeGroup.new input =
        ({ files := [("code from the textbox", .Local "textbox" (rustTrim input))], skipped := false },
          .Success)) ∧
    (∀ (content : String), (CodeGroup.new.import_textbox content).2 = .ok ()) := by
  refine ⟨?_, ?_, ?_⟩
  · intro g input h
    simp [handle_code_text_submit, h]
  · intro input h
    simp [handle_code_text_submit, h, CodeGroup.import_textbox, CodeGroup.add_file, CodeGroup.new]
  · intro content
    simp [CodeGroup.import_textbox, CodeGroup.add_file, CodeGroup.new]

/-- C5 amended witness: the whitespace-only input is rejected by the
handler with a `Parse` error, and a plain input yields exactly the one
synthetic file. -/
theorem claim_C5_amended_witness :
    handle_code_text_submit CodeGroup.new "  " =
      (CodeGroup.new, .Failure (.Parse "code textbox input is empty")) ∧
    handle_code_text_submit CodeGroup.new "abc" =
      ({ files := [("code from the textbox", .Local "textbox" "abc")], skipped := false },
        .Success) := by
  constructor
  · exact claim_C5_amended.1 CodeGroup.new "  " (by decide)
  · exact claim_C5_amended.2.1 "abc" (by decide)

/-- C9 counterexample: the re-insertion is not equivalent to the stage
check alone. When the dispatch ends with the stage at `ApiDone` (not
rolled back) but the shared slot was refilled concurrently (a provider
re-selection while the call was in flight stores a fresh client), the
taken handle is NOT re-inserted — the slot keeps the other client and the
taken handle is dropped — refuting the claimed "if and only if". -/
theorem claim_C9_counterexample :
    StepStage.ApiDone.rank ≤ StepStage.ApiDone.rank ∧
    reinsert_client .ApiDone (some { tag := 1 }) { tag := 0 } = some { tag := 1 } ∧
    reinsert_client .ApiDone (some { tag := 1 }) { tag := 0 } ≠ some { tag := 0 } := by
  refine ⟨le_refl _, ?_, ?_⟩
  · decide
  · decide

/-- C9 amended: after a dispatch that took the client handle, the handle is
re-inserted into the shared slot if and only if the workflow stage is
still at least `ApiDone` AND the slot is still vacant; when the stage has
been rolled back below `ApiDone` the slot is left untouched and the taken
handle is dropped; when the slot was concurrently refilled it keeps its
occupant and the taken handle is likewise dropped. -/
theorem claim_C9_amended :
    ∀ (now_stage : StepStage) (slot : Option ApiClient) (taken : ApiClient),
      (slot = none →
        (reinsert_client now_stage slot taken = some taken ↔
          StepStage.ApiDone.rank ≤ now_stage.rank)) ∧
      (slot = none → ¬ StepStage.ApiDone.rank ≤ now_stage.rank →
        reinsert_client now_stage slot taken = none) ∧
      (∀ c, slot = some c → reinsert_client now_stage slot taken = some c) := by
  intro now_stage slot taken
  refine ⟨?_, ?_, ?_⟩
  · intro hs
    subst hs
    constructor
    · intro h
      by_contra hlt
      simp [reinsert_client, hlt] at h
    · intro h
      simp [reinsert_client, h]
  · intro hs hlt
    subst hs
    simp [reinsert_client, hlt]
  · intro c hs
    subst hs
    by_cases h : StepStage.ApiDone.rank ≤ now_stage.rank
    · simp [reinsert_client, h]
    · simp [reinsert_client, h]

/-- C9 amended witness: with a vacant slot a still-valid stage gets the
handle back, a rolled-back stage drops it, and an occupied slot keeps its
occupant. -/
theorem claim_C9_amended_witness :
    reinsert_client .CodeGot none { tag := 7 } = some { tag := 7 } ∧
    reinsert_client .Initial none { tag := 7 } = none ∧
    reinsert_client .CodeGot (some { tag := 3 }) { tag := 7 } = some { tag := 3 } := by
  refine ⟨?_, ?_, ?_⟩
  · exact ((claim_C9_amended .CodeGot none { tag := 7 }).1 rfl).mpr (by decide)
  · exact (claim_C9_amended .Initial none { tag := 7 }).2.1 rfl (by decide)
  · exact (claim_C9_amended .CodeGot (some { tag := 3 }) { tag := 7 }).2.2 { tag := 3 } rfl

/-- C10: a single-file remote probe whose response declares a parsable
content-length above `MAX_FILE_SIZE` makes `head_single_file` fail the
whole import with a `Limit` error AND set the group's skipped flag, even
though no file was admitted; by contrast, the upload-list layer and the
repo-traversal layer skip an oversized candidate silently (they only set
the skipped flag and continue with the remaining candidates). -/
theorem claim_C10_oversized_probe_limit :
    (∀ (g : CodeGroup) (url : Url) (ct : String) (size : Nat),
      strContains ct "text/html" = false →
      strContains ct "application/xhtml" = false →
      size > MAX_FILE_SIZE →
      g.head_single_file url
          { status_success := true, content_type := some ct, content_length := some size } =
        ({ g with skipped := true }, .error (.Limit "remote file too large"))) ∧
    (∀ (g : CodeGroup) (acc : List (String × String × String)) (f : UploadFile)
        (rest : List UploadFile) (ext : String),
      f.name ≠ "" → extSuffix f.name = some ext → ext ≠ "" → languageMapContains ext = true →
      f.size > MAX_FILE_SIZE →
      g.list_upload_loop acc (f :: rest) =
        CodeGroup.list_upload_loop { g with skipped := true } acc rest) ∧
    (∀ (g : CodeGroup) (owner repo rsha tp path : String) (size : Option Nat)
        (rest : List GhEntry) (acc : List (String × String × Nat))
        (q : List (String × GhTree)) (ext : String),
      extSuffix path = some ext → ext ≠ "" → languageMapContains ext = true →
      size.getD 0 > MAX_FILE_SIZE →
      CodeGroup.bfs_entries g owner repo rsha tp (.blob path size :: rest) acc q =
        CodeGroup.bfs_entries { g with skipped := true } owner repo rsha tp rest acc q) := by
  refine ⟨?_, ?_, ?_⟩
  · intro g url ct size h1 h2 h3
    simp [CodeGroup.head_single_file, h1, h2, h3]
  · intro g acc f rest ext hn hx hne hmap hsz
    simp [CodeGroup.list_upload_loop, hn, hx, hne, hmap, hsz]
  · intro g owner repo rsha tp path size rest acc q ext hx hne hmap hsz
    simp [CodeGroup.bfs_entries, hx, hne, hmap, hsz]

/-- C10 witness: a concrete oversized probe response fails with `Limit`
and flips the skipped flag, while a concrete oversized uploaded candidate
and a concrete oversized repo blob are skipped without error. -/
theorem claim_C10_witness :
    CodeGroup.new.head_single_file
        { scheme := "https", host := some "example.com", path_segments := ["big.rs"] }
        { status_success := true, content_type := some "text/plain",
          content_length := some (MAX_FILE_SIZE + 1) } =
      ({ files := [], skipped := true }, .error (.Limit "remote file too large")) ∧
    CodeGroup.new.list_upload_loop [] [⟨"big.rs", MAX_FILE_SIZE + 1, "x", none⟩] =
      CodeGroup.list_upload_loop { files := [], skipped := true } [] [] ∧
    CodeGroup.bfs_entries CodeGroup.new "o" "r" "s" ""
        [.blob "big.rs" (some (MAX_FILE_SIZE + 1))] [] [] =
      CodeGroup.bfs_entries { files := [], skipped := true } "o" "r" "s" "" [] [] [] := by
  refine ⟨?_, ?_, ?_⟩
  · exact claim_C10_oversized_probe_limit.1 CodeGroup.new _ "text/plain" (MAX_FILE_SIZE + 1)
      (by decide) (by decide) (by decide)
  · exact claim_C10_oversized_probe_limit.2.1 CodeGroup.new [] _ [] ".rs"
      (by decide) (by decide) (by decide) (by decide) (by decide)
  · exact claim_C10_oversized_probe_limit.2.2 CodeGroup.new "o" "r" "s" "" "big.rs"
      (some (MAX_FILE_SIZE + 1)) [] [] [] ".rs"
      (by decide) (by decide) (by decide) (by decide)

/-- Association-list lookup succeeds exactly on stored keys. -/
theorem lookup_isSome_iff_mem_keys (l : List (String × CodeFile)) (name : String) :
    (l.lookup name).isSome = true ↔ name ∈ l.map Prod.fst := by
  induction l with
  | nil => simp [List.lookup]
  | cons kv rest ih =>
    obtain ⟨k, v⟩ := kv
    by_cases h : name = k
    · simp [List.lookup, h]
    · have hbeq : (name == k) = false := beq_eq_false_iff_ne.mpr h
      simp only [List.lookup, hbeq, List.map_cons, List.mem_cons]
      rw [ih]
      constructor
      · intro hmem
        exact Or.inr hmem
      · intro hmem
        cases hmem with
        | inl heq => exact absurd heq h
        | inr hmem => exact hmem

/-- C3: path uniqueness of the file registry. Inserting under an occupied
path fails with an `Exists` error and leaves the group unchanged (the
existing entry is not overwritten); `add_file` only ever appends, so files
admitted earlier are never rolled back; a failing `add_file` loop fails
with an `Exists` error while keeping everything admitted before the
collision; and key uniqueness of the mapping is preserved, so exactly one
file is ever admitted under a path. -/
theorem claim_C3_path_uniqueness :
    (∀ (g : CodeGroup) (name : String) (file : CodeFile),
      (g.files.lookup name).isSome →
      g.add_file name file = (g, .error (.Exists "file name already exists"))) ∧
    (∀ (g : CodeGroup) (name : String) (file : CodeFile) (g' : CodeGroup)
        (r : Except CodeImportError Unit),
      g.add_file name file = (g', r) → g.files <+: g'.files) ∧
    (∀ (g : CodeGroup) (l : List (String × String × String)) (g' : CodeGroup)
        (e : CodeImportError),
      g.add_local_files l = (g', .error e) →
      (∃ m, e = .Exists m) ∧ g.files <+: g'.files) ∧
    (∀ (g : CodeGroup) (name : String) (file : CodeFile) (g' : CodeGroup)
        (r : Except CodeImportError Unit),
      g.add_file name file = (g', r) →
      (g.files.map Prod.fst).Nodup → (g'.files.map Prod.fst).Nodup) := by
  have hadd : ∀ (g : CodeGroup) (name : String) (file : CodeFile) (g' : CodeGroup)
      (r : Except CodeImportError Unit),
      g.add_file name file = (g', r) → g.files <+: g'.files := by
    intro g name file g' r h
    by_cases hocc : (g.files.lookup name).isSome
    · simp [CodeGroup.add_file, hocc] at h
      exact h.1 ▸ List.prefix_refl _
    · simp [CodeGroup.add_file, hocc] at h
      rw [← h.1]
      exact ⟨[(name, file)], rfl⟩
  refine ⟨?_, hadd, ?_, ?_⟩
  · intro g name file hocc
    simp [CodeGroup.add_file, hocc]
  · intro g l
    induction l generalizing g with
    | nil =>
      intro g' e h
      simp [CodeGroup.add_local_files] at h
    | cons x rest ih =>
      obtain ⟨name, ext, content⟩ := x
      intro g' e h
      simp only [CodeGroup.add_local_files] at h
      by_cases hocc : (g.files.lookup name).isSome
      · simp [CodeGroup.add_file, hocc] at h
        exact ⟨⟨"file name already exists", h.2.symm⟩, h.1 ▸ List.prefix_refl _⟩
      · simp only [CodeGroup.add_file, hocc, if_neg, Bool.false_eq_true,
          not_false_eq_true, if_false] at h
        obtain ⟨hm, hpre⟩ := ih _ g' e h
        refine ⟨hm, List.IsPrefix.trans ⟨[(name, .Local ext content)], rfl⟩ hpre⟩
  · intro g name file g' r h hnd
    by_cases hocc : (g.files.lookup name).isSome
    · simp [CodeGroup.add_file, hocc] at h
      rw [← h.1]
      exact hnd
    · simp [CodeGroup.add_file, hocc] at h
      rw [← h.1]
      have hnot : name ∉ g.files.map Prod.fst := by
        intro hmem
        exact hocc ((lookup_isSome_iff_mem_keys g.files name).mpr hmem)
      rw [List.map_append]
      refine List.Nodup.append hnd (by simp) ?_
      intro x hx hxs
      simp at hxs
      subst hxs
      exact hnot hx

/-- C3 witness: on a group already holding `a.rs`, re-adding `a.rs` fails
with `Exists` and changes nothing; a two-entry add loop that collides on
its second entry keeps the first entry (no rollback) and reports
`Exists`. -/
theorem claim_C3_witness :
    (CodeGroup.mk [("a.rs", .Local ".rs" "x")] false).add_file "a.rs" (.Local ".rs" "y") =
      (CodeGroup.mk [("a.rs", .Local ".rs" "x")] false,
        .error (.Exists "file name already exists")) ∧
    (∃ m, CodeImportError.Exists "file name already exists" = .Exists m) ∧
    (CodeGroup.new.files <+:
      (CodeGroup.mk [("b.rs", .Local ".rs" "u")] false).files) := by
  refine ⟨?_, ?_, ?_⟩
  · exact claim_C3_path_uniqueness.1 (CodeGroup.mk [("a.rs", .Local ".rs" "x")] false)
      "a.rs" (.Local ".rs" "y") (by decide)
  · exact (claim_C3_path_uniqueness.2.2.1 (CodeGroup.mk [("a.rs", .Local ".rs" "x")] false)
      [("a.rs", ".rs", "y")] (CodeGroup.mk [("a.rs", .Local ".rs" "x")] false)
      (.Exists "file name already exists") (by decide)).1
  · exact (claim_C3_path_uniqueness.2.2.1 CodeGroup.new
      [("b.rs", ".rs", "u"), ("b.rs", ".rs", "v")]
      (CodeGroup.mk [("b.rs", .Local ".rs" "u")] false)
      (.Exists "file name already exists") (by decide)).2

/-- C4 counterexample: a single uploaded file named as a supported archive
format (`.zip`) that decodes as a well-formed archive with zero entries is
an `Upload` error already at `extract_archive`, and `import_upload`
propagates that error instead of falling back to the standalone-file
interpretation — refuting "the archive-extraction layer does not report an
error; the caller falls back". -/
theorem claim_C4_counterexample :
    (CodeGroup.new.extract_archive ⟨"a.zip", 4, "PK", some []⟩).2 =
      .error (.Upload "uploaded archive do not contain any code files") ∧
    (CodeGroup.new.import_upload [⟨"a.zip", 4, "PK", some []⟩]).2 =
      .error (.Upload "uploaded archive do not contain any code files") := by
  constructor
  · decide
  · decide

/-- C4 amended: the per-format decoders themselves do treat a well-formed
archive with zero admissible entries as success-but-empty (no error), but
`extract_archive` converts an empty decode result into an `Upload` error,
which `import_upload` propagates — no fallback happens for a supported
archive extension; the fallback to the standalone-file interpretation
happens exactly when the single file is not recognized as an archive by
its name (unsupported extension, or no dot at all). -/
theorem claim_C4_amended :
    (∀ (g : CodeGroup) (entries : List ArchiveEntry),
      (g.extract_entries_loop [] entries).2 = [] →
      (g.extract_zip (some entries)).2 = .ok [] ∧
      (g.extract_tar (some entries)).2 = .ok [] ∧
      (g.extract_7z (some entries)).2 = .ok []) ∧
    (∀ (g : CodeGroup) (f : UploadFile) (entries : List ArchiveEntry),
      f.name ≠ "" → extSuffix f.name = some ".zip" → f.archive = some entries →
      (g.extract_entries_loop [] entries).2 = [] →
      (g.extract_archive f).2 =
        .error (.Upload "uploaded archive do not contain any code files") ∧
      (g.import_upload [f]).2 =
        .error (.Upload "uploaded archive do not contain any code files")) ∧
    (∀ (g : CodeGroup) (f : UploadFile) (ext : String),
      f.name ≠ "" → extSuffix f.name = some ext →
      ext ≠ ".zip" → ext ≠ ".tar" → ext ≠ ".gz" → ext ≠ ".tgz" → ext ≠ ".7z" →
      g.extract_archive f = (g, .ok none)) := by
  refine ⟨?_, ?_, ?_⟩
  · intro g entries hempty
    cases hres : g.extract_entries_loop [] entries with
    | mk g1 l1 =>
      rw [hres] at hempty
      simp only at hempty
      subst hempty
      refine ⟨?_, ?_, ?_⟩
      · simp [CodeGroup.extract_zip, hres]
      · simp [CodeGroup.extract_tar, hres]
      · simp [CodeGroup.extract_7z, hres]
  · intro g f entries hn hx ha hempty
    cases hres : g.extract_entries_loop [] entries with
    | mk g1 l1 =>
      rw [hres] at hempty
      simp only at hempty
      subst hempty
      have harch : g.extract_archive f =
          (g1, .error (.Upload "uploaded archive do not contain any code files")) := by
        simp [CodeGroup.extract_archive, hn, hx, ha, CodeGroup.extract_zip, hres]
      refine ⟨by rw [harch], ?_⟩
      simp only [CodeGroup.import_upload, harch]
  · intro g f ext hn hx h1 h2 h3 h4 h5
    simp [CodeGroup.extract_archive, hn, hx, h1, h2, h3, h4, h5]

/-- C4 amended witness: a `.zip` upload decoding to zero entries errors at
both layers, and the same bytes under a non-archive name fall back
(`ok none`). -/
theorem claim_C4_amended_witness :
    ((CodeGroup.new.extract_zip (some [])).2 = .ok [] ∧
      (CodeGroup.new.extract_archive ⟨"a.zip", 4, "PK", some []⟩).2 =
        .error (.Upload "uploaded archive do not contain any code files")) ∧
    CodeGroup.new.extract_archive ⟨"a.txt", 4, "PK", some []⟩ = (CodeGroup.new, .ok none) := by
  refine ⟨⟨?_, ?_⟩, ?_⟩
  · exact (claim_C4_amended.1 CodeGroup.new [] (by decide)).1
  · exact (claim_C4_amended.2.1 CodeGroup.new ⟨"a.zip", 4, "PK", some []⟩ []
      (by decide) (by decide) rfl (by decide)).1
  · exact claim_C4_amended.2.2 CodeGroup.new ⟨"a.txt", 4, "PK", some []⟩ ".txt"
      (by decide) (by decide) (by decide) (by decide) (by decide) (by decide) (by decide)

/-- Characterization of the retry loop: with pairwise-distinct status
cells (each table row owns its own cell), the loop appends exactly the
failed cells to the queue in ledger order, counts them, resets exactly
them to `Pending`, and touches nothing else. -/
theorem retry_loop_spec (results : List (String × Nat)) :
    ∀ (statuses : List DetectionStatus) (queue : List Nat) (cnt : Nat),
      (results.map Prod.snd).Nodup →
      (retry_loop statuses queue cnt results).2.1 = queue ++ retry_targets statuses results ∧
      (retry_loop statuses queue cnt results).2.2 =
        cnt + (retry_targets statuses results).length ∧
      (retry_targets statuses results = [] →
        (retry_loop statuses queue cnt results).1 = statuses) ∧
      (∀ j, (retry_loop statuses queue cnt results).1.getD j .Pending =
        if j ∈ retry_targets statuses results then .Pending
        else statuses.getD j .Pending) := by
  induction results with
  | nil =>
    intro statuses queue cnt hnd
    simp [retry_loop, retry_targets]
  | cons pr rest ih =>
    obtain ⟨p, id⟩ := pr
    intro statuses queue cnt hnd
    have hnd' : (rest.map Prod.snd).Nodup := by
      simp only [List.map_cons, List.nodup_cons] at hnd
      exact hnd.2
    have hid : id ∉ rest.map Prod.snd := by
      simp only [List.map_cons, List.nodup_cons] at hnd
      exact hnd.1
    by_cases hf : (statuses[id]?.getD DetectionStatus.Pending).isFailure = true
    · have hrange : id < statuses.length := by
        by_contra hge
        rw [List.getElem?_eq_none (Nat.le_of_not_lt hge)] at hf
        simp [DetectionStatus.isFailure] at hf
      have htg : retry_targets statuses ((p, id) :: rest) =
          id :: retry_targets statuses rest := by
        simp [retry_targets, hf]
      have hkeep : retry_targets (statuses.set id .Pending) rest =
          retry_targets statuses rest := by
        unfold retry_targets
        congr 1
        apply List.filter_congr
        intro pr2 hpr2
        have hne : id ≠ pr2.2 := by
          intro he
          exact hid (he ▸ List.mem_map_of_mem Prod.snd hpr2)
        simp [List.getElem?_set_ne hne]
      have hstep : retry_loop statuses queue cnt ((p, id) :: rest) =
          retry_loop (statuses.set id .Pending) (queue ++ [id]) (cnt + 1) rest := by
        simp [retry_loop, hf]
      obtain ⟨ihq, ihc, ihz, ihp⟩ := ih (statuses.set id .Pending) (queue ++ [id]) (cnt + 1) hnd'
      rw [hkeep] at ihq ihc ihp
      refine ⟨?_, ?_, ?_, ?_⟩
      · rw [hstep, ihq, htg, List.append_assoc]
        rfl
      · rw [hstep, ihc, htg]
        simp only [List.length_cons]
        omega
      · intro hz
        rw [htg] at hz
        exact absurd hz (List.cons_ne_nil _ _)
      · intro j
        rw [hstep, ihp j, htg]
        by_cases hj : j = id
        · subst hj
          by_cases hmem : j ∈ retry_targets statuses rest
          · simp [hmem]
          · simp only [hmem, if_false, List.mem_cons, true_or, if_true]
            simp [List.getElem?_set_self hrange]
        · have hji : id ≠ j := fun he => hj he.symm
          by_cases hmem : j ∈ retry_targets statuses rest
          · simp [hmem, hj]
          · simp [hmem, hj, List.getElem?_set_ne hji]
    · have hf2 : (statuses[id]?.getD DetectionStatus.Pending).isFailure = false := by
        simp only [Bool.not_eq_true] at hf
        exact hf
      have htg : retry_targets statuses ((p, id) :: rest) =
          retry_targets statuses rest := by
        simp [retry_targets, hf2]
      have hstep : retry_loop statuses queue cnt ((p, id) :: rest) =
          retry_loop statuses queue cnt rest := by
        simp [retry_loop, hf2]
      obtain ⟨ihq, ihc, ihz, ihp⟩ := ih statuses queue cnt hnd'
      refine ⟨?_, ?_, ?_, ?_⟩
      · rw [hstep, ihq, htg]
      · rw [hstep, ihc, htg]
      · intro hz
        rw [htg] at hz
        rw [hstep]
        exact ihz hz
      · intro j
        rw [hstep, ihp j, htg]

/-- C7: with each ledger entry owning its own status cell, triggering retry
re-queues exactly the cells in `Failure` (in ledger order), resets exactly
them to `Pending`, decrements the finished count by the number retried,
and clears the completion flag; when nothing is in `Failure` it sets only
the distinct nothing-to-retry report and leaves the queue, all statuses,
the finished count and the completion flag unchanged. -/
theorem claim_C7_retry_requeues_failures :
    ∀ (s : DetectState),
      (s.file_results.map Prod.snd).Nodup →
      (retry_targets s.statuses s.file_results = [] →
        handle_retry_button s = { s with nothing_to_retry := true }) ∧
      (retry_targets s.statuses s.file_results ≠ [] →
        (handle_retry_button s).task_queue =
          s.task_queue ++ retry_targets s.statuses s.file_results ∧
        (∀ j, (handle_retry_button s).statuses.getD j .Pending =
          if j ∈ retry_targets s.statuses s.file_results then .Pending
          else s.statuses.getD j .Pending) ∧
        (handle_retry_button s).num_finished =
          s.num_finished - (retry_targets s.statuses s.file_results).length ∧
        (handle_retry_button s).detection_cp = false ∧
        (handle_retry_button s).nothing_to_retry = false ∧
        (handle_retry_button s).file_results = s.file_results) := by
  intro s hnd
  obtain ⟨hq, hc, hz, hp⟩ := retry_loop_spec s.file_results s.statuses s.task_queue 0 hnd
  cases hres : retry_loop s.statuses s.task_queue 0 s.file_results with
  | mk st qn =>
    obtain ⟨q, n⟩ := qn
    rw [hres] at hq hc hz hp
    simp only at hq hc hz hp
    constructor
    · intro hzero
      have hn : n = 0 := by
        rw [hc, hzero]
        rfl
      have hqe : q = s.task_queue := by
        rw [hq, hzero, List.append_nil]
      have hst : st = s.statuses := hz hzero
      simp only [handle_retry_button, hres, hn, hqe, hst]
      rfl
    · intro hne
      have hn : n = (retry_targets s.statuses s.file_results).length := by
        rw [hc]
        omega
      have hpos : n > 0 := by
        rw [hn]
        cases hcase : retry_targets s.statuses s.file_results with
        | nil => exact absurd hcase hne
        | cons a l => simp
      have hbtn : handle_retry_button s =
          { s with
            statuses := st
            task_queue := q
            nothing_to_retry := false
            num_finished := s.num_finished - min n s.num_finished
            detection_cp := false } := by
        simp only [handle_retry_button, hres, hpos, if_pos]
      rw [hbtn]
      refine ⟨hq, hp, ?_, rfl, rfl, rfl⟩
      simp only [hn]
      omega

/-- C7 witness: with cells 0 and 2 in `Failure` and cell 1 in `Success`
(3 finished, completion set), retry queues exactly [0, 2], drops the
finished count to 1 and clears completion; a second retry, now without
failures, only reports nothing-to-retry and changes nothing else. -/
theorem claim_C7_retry_witness :
    (handle_retry_button
        ⟨[.Failure "e1", .Success 42 "r", .Failure "e2"], [],
          [("a", 0), ("b", 1), ("c", 2)], 3, true, false⟩).task_queue = [0, 2] ∧
    (handle_retry_button
        ⟨[.Failure "e1", .Success 42 "r", .Failure "e2"], [],
          [("a", 0), ("b", 1), ("c", 2)], 3, true, false⟩).num_finished = 1 ∧
    (handle_retry_button
        ⟨[.Failure "e1", .Success 42 "r", .Failure "e2"], [],
          [("a", 0), ("b", 1), ("c", 2)], 3, true, false⟩).detection_cp = false ∧
    handle_retry_button (handle_retry_button
        ⟨[.Failure "e1", .Success 42 "r", .Failure "e2"], [],
          [("a", 0), ("b", 1), ("c", 2)], 3, true, false⟩) =
      { handle_retry_button
          ⟨[.Failure "e1", .Success 42 "r", .Failure "e2"], [],
            [("a", 0), ("b", 1), ("c", 2)], 3, true, false⟩ with
        nothing_to_retry := true } := by
  have h := claim_C7_retry_requeues_failures
    ⟨[.Failure "e1", .Success 42 "r", .Failure "e2"], [],
      [("a", 0), ("b", 1), ("c", 2)], 3, true, false⟩ (by decide)
  have h2 := h.2 (by decide)
  refine ⟨?_, ?_, h2.2.2.2.1, ?_⟩
  · rw [h2.1]
    decide
  · rw [h2.2.2.1]
    decide
  · have h3 := claim_C7_retry_requeues_failures
      (handle_retry_button
        ⟨[.Failure "e1", .Success 42 "r", .Failure "e2"], [],
          [("a", 0), ("b", 1), ("c", 2)], 3, true, false⟩) (by decide)
    exact h3.1 (by decide)

/-- Inductive invariant of the scheduler state machine: queued cell indices
are in range, and the in-flight cell (if any) currently reads `Flying`. -/
theorem sched_invariant : ∀ (s : SchedState), SchedReachable s →
    (∀ id ∈ s.task_queue, id < s.statuses.length) ∧
    (∀ id, s.inflight = some id → s.statuses.getD id .Pending = .Flying) := by
  intro s hr
  induction hr with
  | init =>
    constructor
    · intro id hmem
      simp [SchedState.init] at hmem
    · intro id hin
      simp [SchedState.init] at hin
  | step s s' hr hstep ih =>
    obtain ⟨ihq, ihf⟩ := ih
    cases hstep with
    | register path =>
      constructor
      · intro id hmem
        simp only [List.length_append, List.length_cons, List.length_nil]
        rcases List.mem_append.mp hmem with hmem | hmem
        · exact Nat.lt_succ_of_lt (ihq id hmem)
        · simp at hmem
          omega
      · intro id hin
        simp only at hin
        have hfly := ihf id hin
        have hlt : id < s.statuses.length := by
          by_contra hge
          rw [List.getD_eq_getElem?_getD, List.getElem?_eq_none (Nat.le_of_not_lt hge)] at hfly
          simp at hfly
        simp only [List.getD_eq_getElem?_getD, List.getElem?_append_left hlt]
        rw [List.getD_eq_getElem?_getD] at hfly
        exact hfly
    | dispatchStart id0 rest hq hn =>
      have hid0 : id0 < s.statuses.length := ihq id0 (by rw [hq]; exact List.mem_cons_self _ _)
      constructor
      · intro id hmem
        simp only [List.length_set]
        exact ihq id (by rw [hq]; exact List.mem_cons_of_mem _ hmem)
      · intro id hin
        simp only [Option.some.injEq] at hin
        subst hin
        simp [List.getElem?_set_self hid0]
    | dispatchFinish id0 outcome hin0 =>
      constructor
      · intro id hmem
        simp only [List.length_set]
        exact ihq id hmem
      · intro id hin
        simp at hin
    | retry =>
      constructor
      · intro id hmem
        simp only [List.length_map]
        rcases List.mem_append.mp hmem with hmem | hmem
        · exact ihq id hmem
        · have := List.mem_filter.mp hmem
          exact List.mem_range.mp this.1
      · intro id hin
        simp only at hin
        have hfly := ihf id hin
        have hlt : id < s.statuses.length := by
          by_contra hge
          rw [List.getD_eq_getElem?_getD, List.getElem?_eq_none (Nat.le_of_not_lt hge)] at hfly
          simp at hfly
        rw [List.getD_eq_getElem?_getD] at hfly ⊢
        rw [List.getElem?_map]
        rw [List.getElem?_eq_getElem hlt] at hfly ⊢
        simp only [Option.getD_some] at hfly
        simp [hfly, DetectionStatus.isFailure]

/-- C8: in every reachable execution of the status-writing events, no cell
ever transitions directly from `Failure` to `Success`: a step taken from a
state where a cell reads `Failure` never leaves it reading `Success`
(retry resets it to `Pending`), and any step that newly writes `Success`
into a cell found it reading `Flying` — the scheduler set `Flying` on the
same cell at the start of the same dispatch. -/
theorem claim_C8_no_failure_to_success :
    ∀ (s s' : SchedState), SchedReachable s → SchedStep s s' →
      (∀ (id : Nat) (msg : String),
        s.statuses.getD id .Pending = .Failure msg →
        ∀ (p : Nat) (r : String), s'.statuses.getD id .Pending ≠ .Success p r) ∧
      (∀ (id : Nat) (p : Nat) (r : String),
        s.statuses.getD id .Pending ≠ .Success p r →
        s'.statuses.getD id .Pending = .Success p r →
        s.statuses.getD id .Pending = .Flying) := by
  intro s s' hr hstep
  obtain ⟨ihq, ihf⟩ := sched_invariant s hr
  cases hstep with
  | register path =>
    have hchar : ∀ (id : Nat),
        (s.statuses ++ [DetectionStatus.Pending]).getD id .Pending = .Pending ∨
        (s.statuses ++ [DetectionStatus.Pending]).getD id .Pending =
          s.statuses.getD id .Pending := by
      intro id
      by_cases hlt : id < s.statuses.length
      · right
        simp [List.getElem?_append_left hlt]
      · left
        by_cases heq : id < s.statuses.length + 1
        · have : id = s.statuses.length := by omega
          subst this
          rw [List.getD_eq_getElem?_getD, List.getElem?_append_right (Nat.le_refl _)]
          simp
        · rw [List.getD_eq_getElem?_getD, List.getElem?_eq_none]
          · simp
          · simp only [List.length_append, List.length_cons, List.length_nil]
            omega
    constructor
    · intro id msg hfail p r hsucc
      rcases hchar id with hpend | hsame
      · rw [hpend] at hsucc
        exact absurd hsucc (by simp)
      · rw [hsame, hfail] at hsucc
        exact absurd hsucc (by simp)
    · intro id p r hne hsucc
      rcases hchar id with hpend | hsame
      · rw [hpend] at hsucc
        exact absurd hsucc (by simp)
      · rw [hsame] at hsucc
        exact absurd hsucc hne
  | dispatchStart id0 rest hq hn =>
    have hid0 : id0 < s.statuses.length := ihq id0 (by rw [hq]; exact List.mem_cons_self _ _)
    have hchar : ∀ (id : Nat),
        (s.statuses.set id0 .Flying).getD id .Pending =
          (if id = id0 then .Flying else s.statuses.getD id .Pending) := by
      intro id
      by_cases hii : id = id0
      · subst hii
        simp [List.getElem?_set_self hid0]
      · have : id0 ≠ id := fun he => hii he.symm
        simp [List.getElem?_set_ne this, hii]
    constructor
    · intro id msg hfail p r hsucc
      rw [hchar id] at hsucc
      by_cases hii : id = id0
      · rw [if_pos hii] at hsucc
        exact absurd hsucc (by simp)
      · rw [if_neg hii, hfail] at hsucc
        exact absurd hsucc (by simp)
    · intro id p r hne hsucc
      rw [hchar id] at hsucc
      by_cases hii : id = id0
      · rw [if_pos hii] at hsucc
        exact absurd hsucc (by simp)
      · rw [if_neg hii] at hsucc
        exact absurd hsucc hne
  | dispatchFinish id0 outcome hin0 =>
    have hfly := ihf id0 hin0
    have hid0 : id0 < s.statuses.length := by
      by_contra hge
      rw [List.getD_eq_getElem?_getD, List.getElem?_eq_none (Nat.le_of_not_lt hge)] at hfly
      simp at hfly
    have hchar : ∀ (id : Nat),
        (s.statuses.set id0 outcome.status).getD id .Pending =
          (if id = id0 then outcome.status else s.statuses.getD id .Pending) := by
      intro id
      by_cases hii : id = id0
      · subst hii
        simp [List.getElem?_set_self hid0]
      · have : id0 ≠ id := fun he => hii he.symm
        simp [List.getElem?_set_ne this, hii]
    constructor
    · intro id msg hfail p r hsucc
      rw [hchar id] at hsucc
      by_cases hii : id = id0
      · subst hii
        rw [hfail] at hfly
        exact absurd hfly (by simp)
      · rw [if_neg hii, hfail] at hsucc
        exact absurd hsucc (by simp)
    · intro id p r hne hsucc
      rw [hchar id] at hsucc
      by_cases hii : id = id0
      · subst hii
        exact hfly
      · rw [if_neg hii] at hsucc
        exact absurd hsucc hne
  | retry =>
    have hchar : ∀ (id : Nat),
        ((s.statuses.map (fun st => if st.isFailure then .Pending else st)).getD id .Pending =
          .Pending) ∨
        ((s.statuses.map (fun st => if st.isFailure then .Pending else st)).getD id .Pending =
          s.statuses.getD id .Pending ∧
          (s.statuses.getD id .Pending).isFailure = false) := by
      intro id
      by_cases hlt : id < s.statuses.length
      · rw [List.getD_eq_getElem?_getD, List.getElem?_map, List.getElem?_eq_getElem hlt]
        simp only [Option.map_some', Option.getD_some]
        by_cases hfail : (s.statuses[id]).isFailure = true
        · left
          simp [hfail]
        · right
          simp only [Bool.not_eq_true] at hfail
          rw [List.getD_eq_getElem?_getD, List.getElem?_eq_getElem hlt]
          simp [hfail]
      · left
        rw [List.getD_eq_getElem?_getD, List.getElem?_eq_none]
        · simp
        · simp only [List.length_map]
          exact Nat.le_of_not_lt hlt
    constructor
    · intro id msg hfail p r hsucc
      rcases hchar id with hpend | ⟨hsame, hnof⟩
      · rw [hpend] at hsucc
        exact absurd hsucc (by simp)
      · rw [hfail] at hnof
        simp [DetectionStatus.isFailure] at hnof
    · intro id p r hne hsucc
      rcases hchar id with hpend | ⟨hsame, hnof⟩
      · rw [hpend] at hsucc
        exact absurd hsucc (by simp)
      · rw [hsame] at hsucc
        exact absurd hsucc hne

/-- C8 witness: along the concrete reachable trace register → dispatch →
fail → retry, the retry step taken from the state where cell 0 reads
`Failure` leaves it reading `Pending`, not `Success`. -/
theorem claim_C8_witness :
    (SchedState.mk [DetectionStatus.Pending] [0] none).statuses.getD 0 .Pending ≠
      .Success 42 "x" := by
  have h1 : SchedReachable ⟨[DetectionStatus.Pending], [0], none⟩ :=
    SchedReachable.step _ _ SchedReachable.init (SchedStep.register _ "a")
  have h2 : SchedReachable ⟨[DetectionStatus.Flying], [], some 0⟩ :=
    SchedReachable.step _ _ h1 (SchedStep.dispatchStart _ 0 [] rfl rfl)
  have h3 : SchedReachable ⟨[DetectionStatus.Failure "boom"], [], none⟩ :=
    SchedReachable.step _ _ h2 (SchedStep.dispatchFinish _ 0 (.failure "boom") rfl)
  have hstep : SchedStep ⟨[DetectionStatus.Failure "boom"], [], none⟩
      ⟨[DetectionStatus.Pending], [0], none⟩ := SchedStep.retry _
  exact (claim_C8_no_failure_to_success _ _ h3 hstep).1 0 "boom" (by decide) 42 "x"

/-- The upload-list loop caps its collection at `MAX_NUM_FILES`. -/
theorem list_upload_loop_len (files : List UploadFile) :
    ∀ (g : CodeGroup) (acc : List (String × String × String)) (g' : CodeGroup)
      (l : List (String × String × String)),
      acc.length < MAX_NUM_FILES →
      g.list_upload_loop acc files = (g', .ok l) → l.length ≤ MAX_NUM_FILES := by
  induction files with
  | nil =>
    intro g acc g' l hlt h
    simp only [CodeGroup.list_upload_loop] at h
    obtain ⟨h1, h2⟩ := Prod.mk.injEq .. ▸ h
    cases h
    omega
  | cons f rest ih =>
    intro g acc g' l hlt h
    simp only [CodeGroup.list_upload_loop] at h
    by_cases hn : f.name = ""
    · rw [if_pos hn] at h
      cases h
    · rw [if_neg hn] at h
      cases hx : extSuffix f.name with
      | none =>
        rw [hx] at h
        exact ih g acc g' l hlt h
      | some extension =>
        rw [hx] at h
        simp only at h
        by_cases hcode : extension ≠ "" ∧ languageMapContains extension
        · rw [if_pos hcode] at h
          by_cases hsz : f.size > MAX_FILE_SIZE
          · rw [if_pos hsz] at h
            exact ih _ acc g' l hlt h
          · rw [if_neg hsz] at h
            by_cases hcap : (acc ++ [(f.name, extension, f.content)]).length ≥ MAX_NUM_FILES
            · rw [if_pos hcap] at h
              cases h
              simp only [List.length_append, List.length_cons, List.length_nil]
              omega
            · rw [if_neg hcap] at h
              refine ih g _ g' l ?_ h
              simp only [List.length_append, List.length_cons, List.length_nil] at hcap ⊢
              omega
        · rw [if_neg hcode] at h
          exact ih g acc g' l hlt h

/-- The upload-list loop never reports an error when all names are
nonempty: admissible candidates beyond the caps are silently dropped. -/
theorem list_upload_loop_ok (files : List UploadFile) :
    ∀ (g : CodeGroup) (acc : List (String × String × String)),
      (∀ f ∈ files, f.name ≠ "") →
      ∃ g' l, g.list_upload_loop acc files = (g', .ok l) := by
  induction files with
  | nil =>
    intro g acc hn
    exact ⟨g, acc, by simp [CodeGroup.list_upload_loop]⟩
  | cons f rest ih =>
    intro g acc hn
    have hf : f.name ≠ "" := hn f (List.mem_cons_self _ _)
    have hrest : ∀ f2 ∈ rest, f2.name ≠ "" := fun f2 h2 => hn f2 (List.mem_cons_of_mem _ h2)
    simp only [CodeGroup.list_upload_loop, if_neg hf]
    cases hx : extSuffix f.name with
    | none => exact ih g acc hrest
    | some extension =>
      simp only
      by_cases hcode : extension ≠ "" ∧ languageMapContains extension
      · rw [if_pos hcode]
        by_cases hsz : f.size > MAX_FILE_SIZE
        · rw [if_pos hsz]
          exact ih _ acc hrest
        · rw [if_neg hsz]
          by_cases hcap : (acc ++ [(f.name, extension, f.content)]).length ≥ MAX_NUM_FILES
          · rw [if_pos hcap]
            exact ⟨g, _, rfl⟩
          · rw [if_neg hcap]
            exact ih g _ hrest
      · rw [if_neg hcode]
        exact ih g acc hrest

/-- The upload-list loop never touches the file mapping. -/
theorem list_upload_loop_files (files : List UploadFile) :
    ∀ (g : CodeGroup) (acc : List (String × String × String)),
      (g.list_upload_loop acc files).1.files = g.files := by
  induction files with
  | nil =>
    intro g acc
    simp [CodeGroup.list_upload_loop]
  | cons f rest ih =>
    intro g acc
    simp only [CodeGroup.list_upload_loop]
    by_cases hn : f.name = ""
    · rw [if_pos hn]
    · rw [if_neg hn]
      cases hx : extSuffix f.name with
      | none => exact ih g acc
      | some extension =>
        simp only
        by_cases hcode : extension ≠ "" ∧ languageMapContains extension
        · rw [if_pos hcode]
          by_cases hsz : f.size > MAX_FILE_SIZE
          · rw [if_pos hsz]
            exact ih _ acc
          · rw [if_neg hsz]
            by_cases hcap : (acc ++ [(f.name, extension, f.content)]).length ≥ MAX_NUM_FILES
            · rw [if_pos hcap]
            · rw [if_neg hcap]
              exact ih g _
        · rw [if_neg hcode]
          exact ih g acc

/-- The archive entry loop caps its collection at `MAX_NUM_FILES` and never
touches the file mapping. -/
theorem extract_entries_loop_len (entries : List ArchiveEntry) :
    ∀ (g : CodeGroup) (acc : List (String × String × String)),
      acc.length < MAX_NUM_FILES →
      (g.extract_entries_loop acc entries).2.length ≤ MAX_NUM_FILES ∧
      (g.extract_entries_loop acc entries).1.files = g.files := by
  induction entries with
  | nil =>
    intro g acc hlt
    exact ⟨Nat.le_of_lt hlt, rfl⟩
  | cons e rest ih =>
    intro g acc hlt
    simp only [CodeGroup.extract_entries_loop]
    by_cases hreg : e.is_file = true
    · rw [if_pos hreg]
      cases hx : extSuffix e.name with
      | none => exact ih g acc hlt
      | some extension =>
        simp only
        by_cases hcode : extension ≠ "" ∧ languageMapContains extension
        · rw [if_pos hcode]
          by_cases hsz : e.size > MAX_FILE_SIZE
          · rw [if_pos hsz]
            exact ih _ acc hlt
          · rw [if_neg hsz]
            by_cases hcap : (acc ++ [(e.name, extension, e.content)]).length ≥ MAX_NUM_FILES
            · rw [if_pos hcap]
              refine ⟨?_, rfl⟩
              simp only [List.length_append, List.length_cons, List.length_nil]
              omega
            · rw [if_neg hcap]
              refine ih g _ ?_
              simp only [List.length_append, List.length_cons, List.length_nil] at hcap ⊢
              omega
        · rw [if_neg hcode]
          exact ih g acc hlt
    · rw [if_neg hreg]
      exact ih g acc hlt


/-- Decoder shape: `extract_zip` leaves the file mapping alone and returns
at most `MAX_NUM_FILES` entries on success. -/
theorem extract_zip_shape (g : CodeGroup) (a : Option (List ArchiveEntry)) :
    (g.extract_zip a).1.files = g.files ∧
    (∀ l, (g.extract_zip a).2 = .ok l → l.length ≤ MAX_NUM_FILES) := by
  cases a with
  | none => exact ⟨rfl, fun l h => by cases h⟩
  | some entries =>
    obtain ⟨hlen, hfiles⟩ := extract_entries_loop_len entries g [] (by simp [MAX_NUM_FILES])
    simp only [CodeGroup.extract_zip]
    cases hres : g.extract_entries_loop [] entries with
    | mk g1 l1 =>
      rw [hres] at hlen hfiles
      exact ⟨hfiles, fun l h => by cases h; exact hlen⟩

/-- Decoder shape for `extract_tar`. -/
theorem extract_tar_shape (g : CodeGroup) (a : Option (List ArchiveEntry)) :
    (g.extract_tar a).1.files = g.files ∧
    (∀ l, (g.extract_tar a).2 = .ok l → l.length ≤ MAX_NUM_FILES) := by
  cases a with
  | none => exact ⟨rfl, fun l h => by cases h⟩
  | some entries =>
    obtain ⟨hlen, hfiles⟩ := extract_entries_loop_len entries g [] (by simp [MAX_NUM_FILES])
    simp only [CodeGroup.extract_tar]
    cases hres : g.extract_entries_loop [] entries with
    | mk g1 l1 =>
      rw [hres] at hlen hfiles
      exact ⟨hfiles, fun l h => by cases h; exact hlen⟩

/-- Decoder shape for `extract_7z`. -/
theorem extract_7z_shape (g : CodeGroup) (a : Option (List ArchiveEntry)) :
    (g.extract_7z a).1.files = g.files ∧
    (∀ l, (g.extract_7z a).2 = .ok l → l.length ≤ MAX_NUM_FILES) := by
  cases a with
  | none => exact ⟨rfl, fun l h => by cases h⟩
  | some entries =>
    obtain ⟨hlen, hfiles⟩ := extract_entries_loop_len entries g [] (by simp [MAX_NUM_FILES])
    simp only [CodeGroup.extract_7z]
    cases hres : g.extract_entries_loop [] entries with
    | mk g1 l1 =>
      rw [hres] at hlen hfiles
      exact ⟨hfiles, fun l h => by cases h; exact hlen⟩

/-- `extract_archive` either propagates an error or falls back, in both
cases without touching the file mapping, and on success returns a capped
entry list. -/
theorem extract_archive_shape (g : CodeGroup) (f : UploadFile) :
    (g.extract_archive f).1.files = g.files ∧
    (∀ l, (g.extract_archive f).2 = .ok (some l) → l.length ≤ MAX_NUM_FILES) := by
  unfold CodeGroup.extract_archive
  split
  · exact ⟨rfl, fun l h => by cases h⟩
  · split
    · rename_i extension heq
      refine ?_
      have hgen : ∀ (dec : Option (CodeGroup × Except CodeImportError
            (List (String × String × String)))),
          (∀ g1 r1, dec = some (g1, r1) → g1.files = g.files ∧
            (∀ l, r1 = .ok l → l.length ≤ MAX_NUM_FILES)) →
          ((match dec with
            | none => (g, Except.ok none)
            | some (g', Except.error e) => (g', Except.error e)
            | some (g', Except.ok l) =>
              if l.isEmpty = true then
                (g', Except.error (CodeImportError.Upload
                  "uploaded archive do not contain any code files"))
              else (g', Except.ok (some l)) :
            CodeGroup × Except CodeImportError
              (Option (List (String × String × String)))).1.files = g.files ∧
          ∀ (l : List (String × String × String)),
            ((match dec with
            | none => (g, Except.ok none)
            | some (g', Except.error e) => (g', Except.error e)
            | some (g', Except.ok l) =>
              if l.isEmpty = true then
                (g', Except.error (CodeImportError.Upload
                  "uploaded archive do not contain any code files"))
              else (g', Except.ok (some l)) :
            CodeGroup × Except CodeImportError
              (Option (List (String × String × String)))).2 = Except.ok (some l)) →
            l.length ≤ MAX_NUM_FILES) := by
        intro dec hside
        cases dec with
        | none => exact ⟨rfl, fun l h => by cases h⟩
        | some pr =>
          obtain ⟨g1, r1⟩ := pr
          obtain ⟨ha, hb⟩ := hside g1 r1 rfl
          cases r1 with
          | error e => exact ⟨ha, fun l h => by cases h⟩
          | ok l1 =>
            by_cases hemp : l1.isEmpty = true
            · simp only [hemp, if_true]
              exact ⟨ha, fun l h => by cases h⟩
            · simp only [hemp, Bool.false_eq_true, if_false]
              refine ⟨ha, fun l h => ?_⟩
              injection h with h2
              injection h2 with h3
              exact h3 ▸ hb l1 rfl
      refine hgen _ ?_
      intro g1 r1 hdec
      by_cases h1 : extension = ".zip"
      · rw [if_pos h1] at hdec
        injection hdec with hpair
        obtain ⟨ha, hb⟩ := extract_zip_shape g f.archive
        rw [hpair] at ha hb
        exact ⟨ha, fun l hl => hb l hl⟩
      · rw [if_neg h1] at hdec
        by_cases h2 : extension = ".tar"
        · rw [if_pos h2] at hdec
          injection hdec with hpair
          obtain ⟨ha, hb⟩ := extract_tar_shape g f.archive
          rw [hpair] at ha hb
          exact ⟨ha, fun l hl => hb l hl⟩
        · rw [if_neg h2] at hdec
          by_cases h3 : extension = ".gz" ∨ extension = ".tgz"
          · rw [if_pos h3] at hdec
            injection hdec with hpair
            obtain ⟨ha, hb⟩ := extract_tar_shape g f.archive
            rw [hpair] at ha hb
            exact ⟨ha, fun l hl => hb l hl⟩
          · rw [if_neg h3] at hdec
            by_cases h4 : extension = ".7z"
            · rw [if_pos h4] at hdec
              injection hdec with hpair
              obtain ⟨ha, hb⟩ := extract_7z_shape g f.archive
              rw [hpair] at ha hb
              exact ⟨ha, fun l hl => hb l hl⟩
            · rw [if_neg h4] at hdec
              cases hdec
    · exact ⟨rfl, fun l h => by cases h⟩

/-- Queue size distributes over append. -/
theorem ghQueueSize_append (q1 q2 : List (String × GhTree)) :
    ghQueueSize (q1 ++ q2) = ghQueueSize q1 + ghQueueSize q2 := by
  induction q1 with
  | nil => simp [ghQueueSize]
  | cons x tl ih =>
    obtain ⟨xp, xt⟩ := x
    simp [ghQueueSize, ih] <;> omega

/-- Unfolding equation for the tree size. -/
theorem GhTree.treeSize_eq (t : GhTree) :
    t.treeSize = 1 + ghEntryListSize t.entries := by
  cases t with
  | mk s es => simp [GhTree.treeSize, GhTree.entries]

/-- Every tree has positive size. -/
theorem GhTree.treeSize_pos (t : GhTree) : 1 ≤ t.treeSize := by
  rw [t.treeSize_eq]
  omega

/-- The entry loop of the BFS can enlarge the queue by at most the size of
the entries it processes. -/
theorem bfs_entries_queue_le (es : List GhEntry) :
    ∀ (g : CodeGroup) (o r s tp : String) (acc : List (String × String × Nat))
      (q : List (String × GhTree)),
      ghQueueSize (CodeGroup.bfs_entries g o r s tp es acc q).2.2.1 ≤
        ghQueueSize q + ghEntryListSize es := by
  induction es with
  | nil =>
    intro g o r s tp acc q
    simp [CodeGroup.bfs_entries, ghEntryListSize]
  | cons e tl ih =>
    intro g o r s tp acc q
    cases e with
    | blob p sz =>
      cases hx : extSuffix p with
      | none =>
        have := ih g o r s tp acc q
        simp only [CodeGroup.bfs_entries, hx]
        simp [ghEntryListSize, ghEntrySize] <;> omega
      | some extension =>
        simp only [CodeGroup.bfs_entries, hx]
        split
        · split
          · have := ih { g with skipped := true } o r s tp acc q
            simp [ghEntryListSize, ghEntrySize] <;> omega
          · split
            · simp [ghEntryListSize, ghEntrySize] <;> omega
            · have := ih g o r s tp (acc ++ [(r ++ "/" ++ full_path tp p,
                raw_url o r s (full_path tp p), sz.getD 0)]) q
              simp [ghEntryListSize, ghEntrySize] <;> omega
        · have := ih g o r s tp acc q
          simp [ghEntryListSize, ghEntrySize] <;> omega
    | tree p sub =>
      have := ih g o r s tp acc (q ++ [(full_path tp p, sub)])
      have h2 := ghQueueSize_append q [(full_path tp p, sub)]
      simp only [CodeGroup.bfs_entries]
      simp [ghEntryListSize, ghEntrySize, ghQueueSize] at this h2 ⊢
      omega
    | other =>
      have := ih g o r s tp acc q
      simp only [CodeGroup.bfs_entries]
      simp [ghEntryListSize, ghEntrySize] <;> omega

/-- The entry loop of the BFS respects the file cap, signals continuation
only while strictly below it, and never touches the file mapping. -/
theorem bfs_entries_len (es : List GhEntry) :
    ∀ (g : CodeGroup) (o r s tp : String) (acc : List (String × String × Nat))
      (q : List (String × GhTree)),
      acc.length < MAX_NUM_FILES →
      (CodeGroup.bfs_entries g o r s tp es acc q).2.1.length ≤ MAX_NUM_FILES ∧
      ((CodeGroup.bfs_entries g o r s tp es acc q).2.2.2 = false →
        (CodeGroup.bfs_entries g o r s tp es acc q).2.1.length < MAX_NUM_FILES) ∧
      (CodeGroup.bfs_entries g o r s tp es acc q).1.files = g.files := by
  induction es with
  | nil =>
    intro g o r s tp acc q hlt
    exact ⟨Nat.le_of_lt hlt, fun _ => hlt, rfl⟩
  | cons e tl ih =>
    intro g o r s tp acc q hlt
    cases e with
    | blob p sz =>
      cases hx : extSuffix p with
      | none =>
        simp only [CodeGroup.bfs_entries, hx]
        exact ih g o r s tp acc q hlt
      | some extension =>
        simp only [CodeGroup.bfs_entries, hx]
        split
        · split
          · exact ih _ o r s tp acc q hlt
          · split
            · rename_i hcap
              refine ⟨?_, ?_, rfl⟩
              · simp only [List.length_append, List.length_cons, List.length_nil] at hcap ⊢
                omega
              · intro hfalse
                simp at hfalse
            · rename_i hcap
              refine ih g o r s tp _ q ?_
              simp only [List.length_append, List.length_cons, List.length_nil] at hcap ⊢
              omega
        · exact ih g o r s tp acc q hlt
    | tree p sub =>
      simp only [CodeGroup.bfs_entries]
      exact ih g o r s tp acc _ hlt
    | other =>
      simp only [CodeGroup.bfs_entries]
      exact ih g o r s tp acc q hlt

/-- The BFS traversal caps its result list at `MAX_NUM_FILES` and never
touches the file mapping. -/
theorem bfs_traverse_len :
    ∀ (n : Nat) (queue : List (String × GhTree)) (g : CodeGroup) (o r : String)
      (acc : List (String × String × Nat)) (rsha : String)
      (g2 : CodeGroup) (l : List (String × String × Nat)),
      ghQueueSize queue ≤ n →
      acc.length < MAX_NUM_FILES →
      CodeGroup.bfs_traverse_tree o r g queue acc rsha = some (g2, l) →
      l.length ≤ MAX_NUM_FILES ∧ g2.files = g.files := by
  intro n
  induction n with
  | zero =>
    intro queue g o r acc rsha g2 l hq hacc h
    cases queue with
    | nil =>
      simp only [CodeGroup.bfs_traverse_tree] at h
      cases h
      exact ⟨Nat.le_of_lt hacc, rfl⟩
    | cons pt rest =>
      obtain ⟨path, t⟩ := pt
      exfalso
      have := t.treeSize_pos
      simp only [ghQueueSize] at hq
      omega
  | succ n ih =>
    intro queue g o r acc rsha g2 l hq hacc h
    cases queue with
    | nil =>
      simp only [CodeGroup.bfs_traverse_tree] at h
      cases h
      exact ⟨Nat.le_of_lt hacc, rfl⟩
    | cons pt rest =>
      obtain ⟨path, t⟩ := pt
      simp only [CodeGroup.bfs_traverse_tree] at h
      by_cases hassert : rsha = "" ∧ path ≠ ""
      · rw [if_pos hassert] at h
        cases h
      · rw [if_neg hassert] at h
        obtain ⟨hlen, hcont, hfiles⟩ := bfs_entries_len t.entries g o r
          (if rsha = "" then t.sha else rsha) path acc rest hacc
        by_cases hcap : (CodeGroup.bfs_entries g o r (if rsha = "" then t.sha else rsha)
            path t.entries acc rest).2.2.2 = true
        · rw [if_pos hcap] at h
          cases h
          exact ⟨hlen, hfiles⟩
        · rw [if_neg hcap] at h
          have hq' : ghQueueSize (CodeGroup.bfs_entries g o r
              (if rsha = "" then t.sha else rsha) path t.entries acc rest).2.2.1 ≤ n := by
            have h1 := bfs_entries_queue_le t.entries g o r
              (if rsha = "" then t.sha else rsha) path acc rest
            have h2 := t.treeSize_eq
            simp only [ghQueueSize] at hq
            omega
          have hacc' := hcont (Bool.not_eq_true _ ▸ hcap)
          obtain ⟨hl2, hf2⟩ := ih _ _ o r _ _ _ _ hq' hacc' h
          exact ⟨hl2, hf2.trans hfiles⟩

/-- The add loop admits at most one file per candidate. -/
theorem add_local_files_count (l : List (String × String × String)) :
    ∀ (g : CodeGroup), (g.add_local_files l).1.num_files ≤ g.num_files + l.length := by
  induction l with
  | nil =>
    intro g
    simp [CodeGroup.add_local_files]
  | cons x rest ih =>
    intro g
    obtain ⟨name, ext, content⟩ := x
    simp only [CodeGroup.add_local_files]
    by_cases hocc : (g.files.lookup name).isSome
    · simp only [CodeGroup.add_file, hocc, if_pos]
      exact Nat.le_add_right _ _
    · simp only [CodeGroup.add_file, hocc, Bool.false_eq_true, if_false]
      have := ih { g with files := g.files ++ [(name, CodeFile.Local ext content)] }
      simp only [CodeGroup.num_files, List.length_append, List.length_cons,
        List.length_nil] at this ⊢
      omega

/-- The remote add loop admits at most one file per candidate. -/
theorem add_remote_files_count (l : List (String × String × Nat)) :
    ∀ (g : CodeGroup), (g.add_remote_files l).1.num_files ≤ g.num_files + l.length := by
  induction l with
  | nil =>
    intro g
    simp [CodeGroup.add_remote_files]
  | cons x rest ih =>
    intro g
    obtain ⟨name, url, sz⟩ := x
    simp only [CodeGroup.add_remote_files]
    by_cases hocc : (g.files.lookup name).isSome
    · simp only [CodeGroup.add_file, hocc, if_pos]
      exact Nat.le_add_right _ _
    · simp only [CodeGroup.add_file, hocc, Bool.false_eq_true, if_false]
      have := ih { g with files := g.files ++ [(name, CodeFile.Remote url sz)] }
      simp only [CodeGroup.num_files, List.length_append, List.length_cons,
        List.length_nil] at this ⊢
      omega

/-- The single-file probe never touches the file mapping. -/
theorem head_single_file_files (g : CodeGroup) (u : Url) (resp : HeadResponse) :
    (g.head_single_file u resp).1.files = g.files := by
  unfold CodeGroup.head_single_file
  repeat first
  | rfl
  | split
  all_goals
    by_cases hsz : resp.content_length.isSome = true ∧ resp.content_length.getD 0 > MAX_FILE_SIZE
    all_goals simp [hsz]

/-- `list_upload_files` never touches the file mapping and returns at most
`MAX_NUM_FILES` candidates on success. -/
theorem list_upload_files_shape (g : CodeGroup) (fs : List UploadFile) :
    (g.list_upload_files fs).1.files = g.files ∧
    (∀ l, (g.list_upload_files fs).2 = .ok (some l) → l.length ≤ MAX_NUM_FILES) := by
  simp only [CodeGroup.list_upload_files]
  cases hres : g.list_upload_loop [] fs with
  | mk g1 r1 =>
    have hf := list_upload_loop_files fs g []
    rw [hres] at hf
    cases r1 with
    | error e => exact ⟨hf, fun l h => by cases h⟩
    | ok l1 =>
      by_cases hemp : l1.isEmpty = true
      · simp only [hemp, if_true]
        exact ⟨hf, fun l h => by cases h⟩
      · simp only [hemp, Bool.false_eq_true, if_false]
        refine ⟨hf, fun l h => ?_⟩
        have hlen := list_upload_loop_len fs g [] g1 l1 (by simp [MAX_NUM_FILES]) hres
        injection h with h2
        injection h2 with h3
        exact h3 ▸ hlen

/-- The standalone-file interpretation keeps an initially empty group at or
below the file cap. -/
theorem import_upload_list_capped (g : CodeGroup) (fs : List UploadFile)
    (hz : g.num_files = 0) :
    (g.import_upload_list fs).1.num_files ≤ MAX_NUM_FILES := by
  simp only [CodeGroup.import_upload_list]
  obtain ⟨hf, hok⟩ := list_upload_files_shape g fs
  cases hres : g.list_upload_files fs with
  | mk g1 r1 =>
    rw [hres] at hf hok
    have hz1 : g1.num_files = 0 := by
      simp only [CodeGroup.num_files] at hz ⊢
      rw [hf]
      exact hz
    cases r1 with
    | error e =>
      simp only [CodeGroup.num_files] at hz1 ⊢
      omega
    | ok o1 =>
      cases o1 with
      | none =>
        simp only [CodeGroup.num_files] at hz1 ⊢
        omega
      | some l =>
        have hcnt := add_local_files_count l g1
        have hl := hok l rfl
        show (g1.add_local_files l).1.num_files ≤ MAX_NUM_FILES
        omega

set_option maxRecDepth 40000 in
/-- C1 counterexample: the `MAX_NUM_FILES` cap is per producer call, not a
group invariant. A first upload of three files whose two last entries
collide admits 2 files and fails with `Exists` (no rollback); retrying
with an upload of 100 fresh admissible files then succeeds and leaves the
group at 102 files — exceeding `MAX_NUM_FILES` even though every single
call admitted at most 100. -/
theorem claim_C1_counterexample :
    ((((CodeGroup.new.import_upload
          [⟨"x.rs", 1, "a", none⟩, ⟨"d.rs", 1, "b", none⟩, ⟨"d.rs", 1, "c", none⟩]).1).import_upload
        ((List.range 100).map
          (fun i => ⟨"g" ++ toString i ++ ".rs", 1, "y", none⟩))).1.num_files = 102) ∧
    102 > MAX_NUM_FILES := by
  constructor
  · decide
  · decide

/-- C1 amended: within any single import call started on an EMPTY group,
at most `MAX_NUM_FILES` files are admitted — each producer stops listing
candidates at the cap, silently dropping the rest instead of failing the
call (the upload-list producer never errors on dropped candidates). The
cap is per call, not a group invariant: applied to a non-empty group (for
example after a partially failed import, which is not rolled back), an
importing call can push `num_files` past `MAX_NUM_FILES`, as the
counterexample shows. -/
theorem claim_C1_amended :
    (∀ (content : String),
      (CodeGroup.new.import_textbox content).1.num_files ≤ MAX_NUM_FILES) ∧
    (∀ (files : List UploadFile),
      (CodeGroup.new.import_upload files).1.num_files ≤ MAX_NUM_FILES) ∧
    (∀ (owner repo : String) (root : GhTree) (res : CodeGroup × Except CodeImportError Unit),
      CodeGroup.new.import_remote_repo owner repo root = some res →
      res.1.num_files ≤ MAX_NUM_FILES) ∧
    (∀ (url : Url) (resp : HeadResponse),
      (CodeGroup.new.import_remote_single url resp).1.num_files ≤ MAX_NUM_FILES) ∧
    (∀ (g : CodeGroup) (acc : List (String × String × String)) (files : List UploadFile),
      (∀ f ∈ files, f.name ≠ "") →
      ∃ g' l, g.list_upload_loop acc files = (g', .ok l)) := by
  have hnewz : CodeGroup.new.num_files = 0 := rfl
  refine ⟨?_, ?_, ?_, ?_, fun g acc files h => list_upload_loop_ok files g acc h⟩
  · intro content
    simp [CodeGroup.import_textbox, CodeGroup.add_file, CodeGroup.new, CodeGroup.num_files,
      MAX_NUM_FILES]
  · intro files
    cases files with
    | nil => exact import_upload_list_capped CodeGroup.new [] hnewz
    | cons f rest =>
      cases rest with
      | cons f2 rest2 =>
        exact import_upload_list_capped CodeGroup.new (f :: f2 :: rest2) hnewz
      | nil =>
        simp only [CodeGroup.import_upload]
        obtain ⟨hf, hok⟩ := extract_archive_shape CodeGroup.new f
        cases hres : CodeGroup.new.extract_archive f with
        | mk g1 r1 =>
          rw [hres] at hf hok
          have hz1 : g1.num_files = 0 := by
            simp only [CodeGroup.num_files]
            rw [hf]
            rfl
          cases r1 with
          | error e =>
            simp only [CodeGroup.num_files] at hz1 ⊢
            omega
          | ok o1 =>
            cases o1 with
            | none => exact import_upload_list_capped g1 [f] hz1
            | some l =>
              have hcnt := add_local_files_count l g1
              have hl := hok l rfl
              show (g1.add_local_files l).1.num_files ≤ MAX_NUM_FILES
              omega
  · intro owner repo root res h
    simp only [CodeGroup.import_remote_repo, CodeGroup.list_github_repo_resolved] at h
    cases hbfs : CodeGroup.bfs_traverse_tree owner repo CodeGroup.new [("", root)] [] "" with
    | none =>
      rw [hbfs] at h
      cases h
    | some pr =>
      obtain ⟨g2, l⟩ := pr
      rw [hbfs] at h
      obtain ⟨hlen, hfiles⟩ := bfs_traverse_len (ghQueueSize [("", root)]) [("", root)]
        CodeGroup.new owner repo [] "" g2 l (Nat.le_refl _) (by simp [MAX_NUM_FILES]) hbfs
      have hz2 : g2.num_files = 0 := by
        simp only [CodeGroup.num_files]
        rw [hfiles]
        rfl
      by_cases hemp : l.isEmpty = true
      · simp only [hemp, if_true] at h
        cases h
        simp only [CodeGroup.num_files] at hz2 ⊢
        omega
      · simp only [hemp, Bool.false_eq_true, if_false] at h
        cases h
        have hcnt := add_remote_files_count l g2
        show (g2.add_remote_files l).1.num_files ≤ MAX_NUM_FILES
        omega
  · intro url resp
    simp only [CodeGroup.import_remote_single]
    have hf := head_single_file_files CodeGroup.new url resp
    cases hres : CodeGroup.new.head_single_file url resp with
    | mk g1 r1 =>
      rw [hres] at hf
      have hz1 : g1.num_files = 0 := by
        simp only [CodeGroup.num_files]
        rw [hf]
        rfl
      cases r1 with
      | error e =>
        simp only [CodeGroup.num_files] at hz1 ⊢
        omega
      | ok o1 =>
        cases o1 with
        | none =>
          simp only [CodeGroup.num_files] at hz1 ⊢
          omega
        | some triple =>
          obtain ⟨path, final_url, sz⟩ := triple
          simp only [CodeGroup.add_file]
          by_cases hocc : (g1.files.lookup path).isSome
          · simp only [hocc, if_pos]
            simp only [CodeGroup.num_files] at hz1 ⊢
            omega
          · simp only [hocc, Bool.false_eq_true, if_false]
            simp only [CodeGroup.num_files, List.length_append] at hz1 ⊢
            simp [MAX_NUM_FILES]
            omega

/-- C1 amended witness: concrete single-call instances — a textbox import,
an upload of two files, a repo import over a one-blob tree, and a
candidate list whose oversized entry is dropped without erroring. -/
theorem claim_C1_amended_witness :
    (CodeGroup.new.import_textbox "abc").1.num_files ≤ MAX_NUM_FILES ∧
    (CodeGroup.new.import_upload
      [⟨"a.rs", 1, "u", none⟩, ⟨"b.rs", 1, "v", none⟩]).1.num_files ≤ MAX_NUM_FILES ∧
    (({ files := [("r/m.rs",
          CodeFile.Remote "https://raw.githubusercontent.com/o/r/sha1/m.rs" 10)],
        skipped := false } : CodeGroup),
      (Except.ok () : Except CodeImportError Unit)).1.num_files ≤ MAX_NUM_FILES ∧
    (∃ g' l, CodeGroup.new.list_upload_loop []
        [⟨"big.rs", MAX_FILE_SIZE + 1, "w", none⟩, ⟨"ok.rs", 1, "z", none⟩] =
      (g', .ok l)) := by
  refine ⟨claim_C1_amended.1 "abc", claim_C1_amended.2.1 _, ?_, ?_⟩
  · refine claim_C1_amended.2.2.1 "o" "r" (GhTree.mk "sha1" [.blob "m.rs" (some 10)]) _ ?_
    simp [CodeGroup.import_remote_repo, CodeGroup.list_github_repo_resolved,
      CodeGroup.bfs_traverse_tree, CodeGroup.bfs_entries, GhTree.entries, GhTree.sha,
      extSuffix, lastDotSuffix, languageMapContains, LANGUAGE_MAP, full_path, raw_url,
      GITHUB_RAW_URL_BASE, MAX_FILE_SIZE, MAX_NUM_FILES, CodeGroup.add_remote_files,
      CodeGroup.add_file, CodeGroup.new]
  · exact claim_C1_amended.2.2.2.2 CodeGroup.new []
      [⟨"big.rs", MAX_FILE_SIZE + 1, "w", none⟩, ⟨"ok.rs", 1, "z", none⟩]
      (by decide)

/-- Characterization of the BFS entry loop against the spec-side admitted
blobs: under the budget hypothesis (everything still reachable fits in the
cap), the entry loop appends exactly the admissible blobs of the entries
to the accumulator, appends exactly the subtrees to the queue when it did
not stop early, and stops early only with a full accumulator. -/
theorem bfs_entries_spec (es : List GhEntry) :
    ∀ (g : CodeGroup) (o r s tp : String) (acc : List (String × String × Nat))
      (q : List (String × GhTree)),
      acc.length + (github_blobs o r s tp es).length +
        (github_admitted o r s (q ++ github_subtrees tp es)).length ≤ MAX_NUM_FILES →
      (CodeGroup.bfs_entries g o r s tp es acc q).2.1 = acc ++ github_blobs o r s tp es ∧
      ((CodeGroup.bfs_entries g o r s tp es acc q).2.2.2 = false →
        (CodeGroup.bfs_entries g o r s tp es acc q).2.2.1 = q ++ github_subtrees tp es) ∧
      ((CodeGroup.bfs_entries g o r s tp es acc q).2.2.2 = true →
        MAX_NUM_FILES ≤ (CodeGroup.bfs_entries g o r s tp es acc q).2.1.length) := by
  induction es with
  | nil =>
    intro g o r s tp acc q hbud
    refine ⟨?_, ?_, ?_⟩
    · show acc = acc ++ github_blobs o r s tp []
      simp [github_blobs]
    · intro hfalse
      show q = q ++ github_subtrees tp []
      simp [github_subtrees]
    · intro htrue
      cases htrue
  | cons e tl ih =>
    intro g o r s tp acc q hbud
    cases e with
    | blob p sz =>
      cases hx : extSuffix p with
      | none =>
        simp only [CodeGroup.bfs_entries, hx]
        have hb : github_blobs o r s tp (.blob p sz :: tl) = github_blobs o r s tp tl := by
          simp [github_blobs, hx]
        have hsub : github_subtrees tp (.blob p sz :: tl) = github_subtrees tp tl := by
          simp [github_subtrees]
        rw [hb, hsub] at hbud ⊢
        exact ih g o r s tp acc q hbud
      | some extension =>
        simp only [CodeGroup.bfs_entries, hx]
        by_cases hcode : extension ≠ "" ∧ languageMapContains extension
        · rw [if_pos hcode]
          by_cases hsz : sz.getD 0 > MAX_FILE_SIZE
          · rw [if_pos hsz]
            have hb : github_blobs o r s tp (.blob p sz :: tl) =
                github_blobs o r s tp tl := by
              simp only [github_blobs, hx]
              rw [if_pos hcode, if_pos hsz]
            have hsub : github_subtrees tp (.blob p sz :: tl) = github_subtrees tp tl := by
              simp [github_subtrees]
            rw [hb, hsub] at hbud ⊢
            exact ih _ o r s tp acc q hbud
          · rw [if_neg hsz]
            have hb : github_blobs o r s tp (.blob p sz :: tl) =
                (r ++ "/" ++ full_path tp p, raw_url o r s (full_path tp p), sz.getD 0) ::
                  github_blobs o r s tp tl := by
              simp only [github_blobs, hx]
              rw [if_pos hcode, if_neg hsz]
            have hsub : github_subtrees tp (.blob p sz :: tl) = github_subtrees tp tl := by
              simp [github_subtrees]
            rw [hb, hsub] at hbud ⊢
            by_cases hcap : (acc ++ [(r ++ "/" ++ full_path tp p,
                raw_url o r s (full_path tp p), sz.getD 0)]).length ≥ MAX_NUM_FILES
            · rw [if_pos hcap]
              have hbl : github_blobs o r s tp tl = [] := by
                rw [← List.length_eq_zero]
                simp only [List.length_cons, List.length_append, List.length_nil] at hbud hcap
                omega
              rw [hbl]
              refine ⟨?_, ?_, ?_⟩
              · rfl
              · intro hfalse
                cases hfalse
              · intro htrue
                simp only [List.length_append, List.length_cons, List.length_nil] at hcap ⊢
                omega
            · rw [if_neg hcap]
              have hbud' : (acc ++ [(r ++ "/" ++ full_path tp p,
                    raw_url o r s (full_path tp p), sz.getD 0)]).length +
                  (github_blobs o r s tp tl).length +
                  (github_admitted o r s (q ++ github_subtrees tp tl)).length ≤
                    MAX_NUM_FILES := by
                simp only [List.length_append, List.length_cons, List.length_nil] at hbud ⊢
                omega
              obtain ⟨h1, h2, h3⟩ := ih g o r s tp _ q hbud'
              refine ⟨?_, h2, h3⟩
              rw [h1, List.append_assoc]
              rfl
        · rw [if_neg hcode]
          have hb : github_blobs o r s tp (.blob p sz :: tl) = github_blobs o r s tp tl := by
            simp only [github_blobs, hx]
            rw [if_neg hcode]
          have hsub : github_subtrees tp (.blob p sz :: tl) = github_subtrees tp tl := by
            simp [github_subtrees]
          rw [hb, hsub] at hbud ⊢
          exact ih g o r s tp acc q hbud
    | tree p sub =>
      simp only [CodeGroup.bfs_entries]
      have hb : github_blobs o r s tp (.tree p sub :: tl) = github_blobs o r s tp tl := by
        simp [github_blobs]
      have hsub : github_subtrees tp (.tree p sub :: tl) =
          (full_path tp p, sub) :: github_subtrees tp tl := by
        simp [github_subtrees]
      have hq : q ++ github_subtrees tp (.tree p sub :: tl) =
          (q ++ [(full_path tp p, sub)]) ++ github_subtrees tp tl := by
        rw [hsub, List.append_assoc]
        rfl
      rw [hb] at hbud ⊢
      rw [hq] at hbud
      obtain ⟨h1, h2, h3⟩ := ih g o r s tp acc (q ++ [(full_path tp p, sub)]) hbud
      refine ⟨h1, ?_, h3⟩
      intro hfalse
      rw [h2 hfalse, hq]
    | other =>
      simp only [CodeGroup.bfs_entries]
      have hb : github_blobs o r s tp (.other :: tl) = github_blobs o r s tp tl := by
        simp [github_blobs]
      have hsub : github_subtrees tp (.other :: tl) = github_subtrees tp tl := by
        simp [github_subtrees]
      rw [hb, hsub] at hbud ⊢
      exact ih g o r s tp acc q hbud

/-- Refinement of the whole BFS against the spec-side admitted list: with a
nonempty root sha already recorded and everything reachable fitting in the
cap, the traversal returns exactly the accumulated list plus all
admissible blobs reachable from the queue, in breadth-first order. -/
theorem bfs_traverse_spec :
    ∀ (n : Nat) (queue : List (String × GhTree)) (g : CodeGroup) (o r : String)
      (acc : List (String × String × Nat)) (s : String),
      ghQueueSize queue ≤ n →
      s ≠ "" →
      acc.length + (github_admitted o r s queue).length ≤ MAX_NUM_FILES →
      (CodeGroup.bfs_traverse_tree o r g queue acc s).map (fun pr => pr.2) =
        some (acc ++ github_admitted o r s queue) := by
  intro n
  induction n with
  | zero =>
    intro queue g o r acc s hq hs hbud
    cases queue with
    | nil =>
      simp [CodeGroup.bfs_traverse_tree, github_admitted]
    | cons pt rest =>
      obtain ⟨path, t⟩ := pt
      exfalso
      have := t.treeSize_pos
      simp only [ghQueueSize] at hq
      omega
  | succ n ih =>
    intro queue g o r acc s hq hs hbud
    cases queue with
    | nil =>
      simp [CodeGroup.bfs_traverse_tree, github_admitted]
    | cons pt rest =>
      obtain ⟨path, t⟩ := pt
      simp only [CodeGroup.bfs_traverse_tree]
      rw [if_neg (by simp [hs])]
      rw [if_neg hs]
      have hadm : github_admitted o r s ((path, t) :: rest) =
          github_blobs o r s path t.entries ++
            github_admitted o r s (rest ++ github_subtrees path t.entries) := by
        simp [github_admitted]
      have hbud2 : acc.length + (github_blobs o r s path t.entries).length +
          (github_admitted o r s (rest ++ github_subtrees path t.entries)).length ≤
            MAX_NUM_FILES := by
        rw [hadm] at hbud
        simp only [List.length_append] at hbud
        omega
      obtain ⟨he1, he2, he3⟩ := bfs_entries_spec t.entries g o r s path acc rest hbud2
      by_cases hcap : (CodeGroup.bfs_entries g o r s path t.entries acc rest).2.2.2 = true
      · rw [if_pos hcap]
        have hmax := he3 hcap
        rw [he1] at hmax
        have hrest : github_admitted o r s (rest ++ github_subtrees path t.entries) = [] := by
          rw [← List.length_eq_zero]
          simp only [List.length_append] at hmax
          omega
        simp only [Option.map_some']
        rw [he1, hadm, hrest, List.append_nil]
      · rw [if_neg hcap]
        have hcapf : (CodeGroup.bfs_entries g o r s path t.entries acc rest).2.2.2 = false := by
          cases hb : (CodeGroup.bfs_entries g o r s path t.entries acc rest).2.2.2 with
          | false => rfl
          | true => exact absurd hb hcap
        have hq' : ghQueueSize (CodeGroup.bfs_entries g o r s path t.entries acc rest).2.2.1 ≤
            n := by
          have h1 := bfs_entries_queue_le t.entries g o r s path acc rest
          have h2 := t.treeSize_eq
          simp only [ghQueueSize] at hq
          omega
        rw [he2 hcapf, he1] at *
        have hbud' : (acc ++ github_blobs o r s path t.entries).length +
            (github_admitted o r s (rest ++ github_subtrees path t.entries)).length ≤
              MAX_NUM_FILES := by
          rw [hadm] at hbud
          simp only [List.length_append] at hbud ⊢
          omega
        have := ih (rest ++ github_subtrees path t.entries)
          (CodeGroup.bfs_entries g o r s path t.entries acc rest).1 o r
          (acc ++ github_blobs o r s path t.entries) s (by
            rw [he2 hcapf] at hq'
            exact hq') hs hbud'
        rw [this, hadm, List.append_assoc]

/-- Every admissible blob of one entry list carries a raw URL built from
the given root sha. -/
theorem github_blobs_mem (o r s tp : String) (es : List GhEntry) :
    ∀ x ∈ github_blobs o r s tp es, ∃ p fp sz, x = (p, raw_url o r s fp, sz) := by
  induction es with
  | nil =>
    intro x hx
    simp [github_blobs] at hx
  | cons e tl ih =>
    intro x hx
    cases e with
    | blob p sz =>
      cases hex : extSuffix p with
      | none =>
        simp only [github_blobs, hex] at hx
        exact ih x hx
      | some extension =>
        simp only [github_blobs, hex] at hx
        by_cases hcode : extension ≠ "" ∧ languageMapContains extension
        · rw [if_pos hcode] at hx
          by_cases hsz : sz.getD 0 > MAX_FILE_SIZE
          · rw [if_pos hsz] at hx
            exact ih x hx
          · rw [if_neg hsz] at hx
            rcases List.mem_cons.mp hx with hx | hx
            · exact ⟨r ++ "/" ++ full_path tp p, full_path tp p, sz.getD 0, hx⟩
            · exact ih x hx
        · rw [if_neg hcode] at hx
          exact ih x hx
    | tree p sub =>
      simp only [github_blobs] at hx
      exact ih x hx
    | other =>
      simp only [github_blobs] at hx
      exact ih x hx

/-- Every spec-side admitted file carries a raw URL built from the single
root sha. -/
theorem github_admitted_mem :
    ∀ (n : Nat) (q : List (String × GhTree)) (o r s : String),
      ghQueueSize q ≤ n →
      ∀ x ∈ github_admitted o r s q, ∃ p fp sz, x = (p, raw_url o r s fp, sz) := by
  intro n
  induction n with
  | zero =>
    intro q o r s hq x hx
    cases q with
    | nil => simp [github_admitted] at hx
    | cons pt rest =>
      obtain ⟨path, t⟩ := pt
      exfalso
      have := t.treeSize_pos
      simp only [ghQueueSize] at hq
      omega
  | succ n ih =>
    intro q o r s hq x hx
    cases q with
    | nil => simp [github_admitted] at hx
    | cons pt rest =>
      obtain ⟨path, t⟩ := pt
      simp only [github_admitted] at hx
      rcases List.mem_append.mp hx with hx | hx
      · exact github_blobs_mem o r s path t.entries x hx
      · refine ih (rest ++ github_subtrees path t.entries) o r s ?_ x hx
        have h1 := ghQueueSize_append rest (github_subtrees path t.entries)
        have h2 := t.treeSize_eq
        have h3 : ghQueueSize (github_subtrees path t.entries) ≤
            ghEntryListSize t.entries := by
          generalize t.entries = es
          clear hx h1 h2 hq
          induction es with
          | nil => simp [github_subtrees, ghQueueSize, ghEntryListSize]
          | cons e tl ihe =>
            cases e with
            | blob p2 sz2 =>
              simp only [github_subtrees, ghEntryListSize, ghEntrySize]
              omega
            | tree p2 sub2 =>
              simp only [github_subtrees, ghEntryListSize, ghEntrySize, ghQueueSize]
              omega
            | other =>
              simp only [github_subtrees, ghEntryListSize, ghEntrySize]
              omega
        simp only [ghQueueSize] at hq
        omega

/-- C6: for a GitHub repository traversal over a resolved root tree whose
response sha is nonempty, and whose admissible blobs fit in the file cap,
the traversal admits exactly the blob entries whose extension is in the
recognized code-extension set and whose declared size is within the
per-file cap (in breadth-first order), `list_github_repo` hands exactly
that list to the import when it is nonempty, and every admitted file's
raw URL is composed as raw-host/owner/repo/root-sha/path with the single
root sha taken from the first (root) tree response. -/
theorem claim_C6_github_traversal :
    ∀ (owner repo : String) (t : GhTree) (g : CodeGroup),
      t.sha ≠ "" →
      (github_admitted owner repo t.sha [("", t)]).length ≤ MAX_NUM_FILES →
      ((CodeGroup.bfs_traverse_tree owner repo g [("", t)] [] "").map (fun pr => pr.2) =
        some (github_admitted owner repo t.sha [("", t)])) ∧
      (github_admitted owner repo t.sha [("", t)] ≠ [] →
        (g.list_github_repo_resolved owner repo t).map (fun pr => pr.2) =
          some (.ok (github_admitted owner repo t.sha [("", t)]))) ∧
      (∀ x ∈ github_admitted owner repo t.sha [("", t)],
        ∃ path fullpath sz, x = (path, raw_url owner repo t.sha fullpath, sz)) := by
  intro owner repo t g hsha hbud
  have hadm : github_admitted owner repo t.sha [("", t)] =
      github_blobs owner repo t.sha "" t.entries ++
        github_admitted owner repo t.sha ([] ++ github_subtrees "" t.entries) := by
    simp [github_admitted]
  have hmain : (CodeGroup.bfs_traverse_tree owner repo g [("", t)] [] "").map
      (fun pr => pr.2) = some (github_admitted owner repo t.sha [("", t)]) := by
    simp only [CodeGroup.bfs_traverse_tree]
    rw [if_neg (by simp)]
    simp only [if_true]
    have hbud2 : ([] : List (String × String × Nat)).length +
        (github_blobs owner repo t.sha "" t.entries).length +
        (github_admitted owner repo t.sha ([] ++ github_subtrees "" t.entries)).length ≤
          MAX_NUM_FILES := by
      rw [hadm] at hbud
      simp only [List.length_append, List.length_nil] at hbud ⊢
      omega
    obtain ⟨he1, he2, he3⟩ := bfs_entries_spec t.entries g owner repo t.sha "" [] [] hbud2
    by_cases hcap : (CodeGroup.bfs_entries g owner repo t.sha "" t.entries [] []).2.2.2 = true
    · rw [if_pos hcap]
      have hmax := he3 hcap
      rw [he1] at hmax
      have hrest : github_admitted owner repo t.sha ([] ++ github_subtrees "" t.entries) =
          [] := by
        rw [← List.length_eq_zero]
        rw [hadm] at hbud
        simp only [List.length_append, List.length_nil] at hmax hbud
        omega
      simp only [Option.map_some']
      rw [he1, hadm, hrest, List.append_nil]
      rfl
    · rw [if_neg hcap]
      have hcapf : (CodeGroup.bfs_entries g owner repo t.sha "" t.entries [] []).2.2.2 =
          false := by
        cases hb : (CodeGroup.bfs_entries g owner repo t.sha "" t.entries [] []).2.2.2 with
        | false => rfl
        | true => exact absurd hb hcap
      have hbud' : ((CodeGroup.bfs_entries g owner repo t.sha "" t.entries [] []).2.1).length +
          (github_admitted owner repo t.sha ([] ++ github_subtrees "" t.entries)).length ≤
            MAX_NUM_FILES := by
        rw [he1]
        rw [hadm] at hbud
        simp only [List.length_append, List.length_nil] at hbud ⊢
        omega
      have hrec := bfs_traverse_spec
        (ghQueueSize (CodeGroup.bfs_entries g owner repo t.sha "" t.entries [] []).2.2.1)
        (CodeGroup.bfs_entries g owner repo t.sha "" t.entries [] []).2.2.1
        (CodeGroup.bfs_entries g owner repo t.sha "" t.entries [] []).1 owner repo
        (CodeGroup.bfs_entries g owner repo t.sha "" t.entries [] []).2.1 t.sha
        (Nat.le_refl _) hsha (by rw [he2 hcapf, he1] at *; exact hbud')
      rw [hrec, he2 hcapf, he1, hadm]
      rw [List.nil_append, List.nil_append]
  refine ⟨hmain, ?_, fun x hx => github_admitted_mem (ghQueueSize [("", t)]) [("", t)]
    owner repo t.sha (Nat.le_refl _) x hx⟩
  intro hne
  simp only [CodeGroup.list_github_repo_resolved]
  cases hbfs : CodeGroup.bfs_traverse_tree owner repo g [("", t)] [] "" with
  | none =>
    rw [hbfs] at hmain
    simp at hmain
  | some pr =>
    obtain ⟨g2, l⟩ := pr
    rw [hbfs] at hmain
    simp only [Option.map_some'] at hmain
    injection hmain with hl
    have hnemp : ¬ (l.isEmpty = true) := by
      rw [List.isEmpty_iff, hl]
      exact hne
    simp only [hnemp, Bool.false_eq_true, if_false, Option.map_some']
    rw [hl]

/-- C6 witness: the spec's synthetic repo — a root tree with 3 blobs
(2 code, 1 non-code) and 1 subtree containing 1 more code blob — yields
exactly 3 admitted files, each with a raw URL sharing the single root
sha. -/
theorem claim_C6_witness :
    (CodeGroup.bfs_traverse_tree "o" "repo" CodeGroup.new
        [("", GhTree.mk "rootsha" [.blob "a.rs" (some 10), .blob "img.png" (some 5),
          .blob "b.py" (some 20), .tree "sub" (GhTree.mk "subsha" [.blob "c.go" (some 7)])])]
        [] "").map (fun pr => pr.2) =
      some [("repo/a.rs", "https://raw.githubusercontent.com/o/repo/rootsha/a.rs", 10),
        ("repo/b.py", "https://raw.githubusercontent.com/o/repo/rootsha/b.py", 20),
        ("repo/sub/c.go", "https://raw.githubusercontent.com/o/repo/rootsha/sub/c.go", 7)] := by
  have h := claim_C6_github_traversal "o" "repo"
    (GhTree.mk "rootsha" [.blob "a.rs" (some 10), .blob "img.png" (some 5),
      .blob "b.py" (some 20), .tree "sub" (GhTree.mk "subsha" [.blob "c.go" (some 7)])])
    CodeGroup.new
    (by decide)
    (by simp [github_admitted, github_blobs, github_subtrees, GhTree.sha, GhTree.entries,
      extSuffix, lastDotSuffix, languageMapContains, LANGUAGE_MAP, full_path, raw_url,
      GITHUB_RAW_URL_BASE, MAX_FILE_SIZE, MAX_NUM_FILES])
  refine (h.1).trans ?_
  simp [github_admitted, github_blobs, github_subtrees, GhTree.sha, GhTree.entries,
    extSuffix, lastDotSuffix, languageMapContains, LANGUAGE_MAP, full_path, raw_url,
    GITHUB_RAW_URL_BASE, MAX_FILE_SIZE]
